import Mathlib

/-!
Verification development for the MaxTri sweep-line arrangement engine
(src/src/maxtri.cc of the voronoi-game repository).

The engine sweeps a set of triangles by increasing y, detects pairwise
boundary crossings among the active edges, builds an overlap graph from
the crossings, extracts a maximum clique after the event queue drains and
intersects the clique triangles into one solution region.

The definitions below are a shallow embedding of that code over exact
rational coordinates.  Functions whose bodies live in maxtri.cc are
translated from that file; the pieces that live in the headers absent
from the repository snapshot (the status comparator, the event ordering,
the segment classification predicate, the event queue and the clique
enumeration collaborator) are modelled from the specification and are
marked as such in their doc comments.
-/

namespace MaxTri

/-- A 2D point with exact rational coordinates. -/
structure Pt where
  x : ℚ
  y : ℚ
deriving DecidableEq, Repr

/-- Modelled from the spec: the sweep order over points — total order by
y ascending, tie-break x ascending (spec section 3). -/
def sweepLt (p q : Pt) : Prop :=
  p.y < q.y ∨ (p.y = q.y ∧ p.x < q.x)

instance (p q : Pt) : Decidable (sweepLt p q) := by
  unfold sweepLt; infer_instance

/-- A directed segment owned by a triangle; `owner` is the owning
triangle id and `tag` records which of the three triangle edges it is
(0, 1 or 2 as in the diagram in maxtri.cc handle_tripoint). -/
structure Seg where
  a : Pt
  b : Pt
  owner : ℕ
  tag : ℕ
deriving DecidableEq, Repr

/-- A triangle with its three vertices ranked TOP, MIDDLE, BOTTOM under
the sweep order (spec section 3) and a stable id. -/
structure Triangle where
  v0 : Pt
  v1 : Pt
  v2 : Pt
  tid : ℕ
deriving DecidableEq, Repr

/-- Edge E0 of the triangle: TOP to MIDDLE. -/
def Triangle.e0 (t : Triangle) : Seg := ⟨t.v0, t.v1, t.tid, 0⟩

/-- Edge E1 of the triangle: TOP to BOTTOM (the spanning edge). -/
def Triangle.e1 (t : Triangle) : Seg := ⟨t.v0, t.v2, t.tid, 1⟩

/-- Edge E2 of the triangle: MIDDLE to BOTTOM. -/
def Triangle.e2 (t : Triangle) : Seg := ⟨t.v1, t.v2, t.tid, 2⟩

/-- The three edges of a triangle. -/
def Triangle.edges (t : Triangle) : List Seg := [t.e0, t.e1, t.e2]

/-- Kernel-computable addition of rationals (the library addition is
marked irreducible; this clone reduces under kernel evaluation and is
proved equal to the library addition below). -/
def qadd (a b : ℚ) : ℚ := mkRat (a.num * b.den + b.num * a.den) (a.den * b.den)

/-- Kernel-computable subtraction of rationals. -/
def qsub (a b : ℚ) : ℚ := mkRat (a.num * b.den - b.num * a.den) (a.den * b.den)

/-- Kernel-computable multiplication of rationals. -/
def qmul (a b : ℚ) : ℚ := mkRat (a.num * b.num) (a.den * b.den)

/-- Kernel-computable division of rationals (zero when dividing by
zero, like the library division). -/
def qdiv (a b : ℚ) : ℚ := Rat.divInt (a.num * b.den) (a.den * b.num)

/-- Twice the signed area of the triangle p q r (orientation test). -/
def orient (p q r : Pt) : ℚ :=
  qsub (qmul (qsub q.x p.x) (qsub r.y p.y)) (qmul (qsub q.y p.y) (qsub r.x p.x))

/-- Classification codes of the segment intersection collaborator
(spec section 6): no crossing, vertex touch, collinear overlap, proper
(strict transversal) crossing. -/
inductive ICode where
  | none
  | vert
  | edge
  | proper
deriving DecidableEq, Repr

/-- The denominator of the intersection parameters: the cross product of
the two segment directions (zero exactly for parallel or collinear
segments). -/
def ssDen (s t : Seg) : ℚ :=
  qsub (qmul (qsub s.b.x s.a.x) (qsub t.b.y t.a.y))
       (qmul (qsub s.b.y s.a.y) (qsub t.b.x t.a.x))

/-- The intersection parameter along the first segment. -/
def ssL (s t : Seg) : ℚ :=
  qdiv (qsub (qmul (qsub t.a.x s.a.x) (qsub t.b.y t.a.y))
             (qmul (qsub t.a.y s.a.y) (qsub t.b.x t.a.x))) (ssDen s t)

/-- The intersection parameter along the second segment. -/
def ssM (s t : Seg) : ℚ :=
  qdiv (qsub (qmul (qsub t.a.x s.a.x) (qsub s.b.y s.a.y))
             (qmul (qsub t.a.y s.a.y) (qsub s.b.x s.a.x))) (ssDen s t)

/-- The crossing point: the point at parameter ssL along the first
segment. -/
def ssPt (s t : Seg) : Pt :=
  ⟨qadd s.a.x (qmul (ssL s t) (qsub s.b.x s.a.x)),
   qadd s.a.y (qmul (ssL s t) (qsub s.b.y s.a.y))⟩

/-- Modelled from the spec: the exact segment-segment classification
predicate of the missing intersection.h, per the collaborator contract
of spec section 6.  It returns one of the four codes together with the
crossing point (meaningful for the proper code): a proper crossing has
both intersection parameters strictly inside (0,1); parameter values in
[0,1] touching the boundary give a vertex touch; collinear segments with
overlapping spans give the overlap code. -/
def segSegInt (s t : Seg) : ICode × Pt :=
  if ssDen s t ≠ 0 then
    if 0 < ssL s t ∧ ssL s t < 1 ∧ 0 < ssM s t ∧ ssM s t < 1 then
      (ICode.proper, ssPt s t)
    else if 0 ≤ ssL s t ∧ ssL s t ≤ 1 ∧ 0 ≤ ssM s t ∧ ssM s t ≤ 1 then
      (ICode.vert, ssPt s t)
    else (ICode.none, ssPt s t)
  else
    if orient s.a s.b t.a = 0 ∧
        max (min s.a.x s.b.x) (min t.a.x t.b.x)
          ≤ min (max s.a.x s.b.x) (max t.a.x t.b.x) ∧
        max (min s.a.y s.b.y) (min t.a.y t.b.y)
          ≤ min (max s.a.y s.b.y) (max t.a.y t.b.y) then
      (ICode.edge, s.a)
    else (ICode.none, s.a)

/-- The x position of (the supporting line of) a segment at sweep
height y.  This is the sort key of the Sweep Status (spec section 4.2);
it is only meaningful for non-horizontal segments. -/
def xAt (s : Seg) (y : ℚ) : ℚ :=
  qadd s.a.x (qdiv (qmul (qsub y s.a.y) (qsub s.b.x s.a.x)) (qsub s.b.y s.a.y))

/-- Modelled from the spec: the Sweep Status comparator of the missing
maxtri.h — it compares the x positions of the segments at the current
sweep height (spec section 4.2; section 4.3 confirms that edges meeting
at one point compare equal, so there is no further tie-break). -/
def keyLt (cy : ℚ) (s t : Seg) : Prop := xAt s cy < xAt t cy

instance (cy : ℚ) (s t : Seg) : Decidable (keyLt cy s t) := by
  unfold keyLt; infer_instance

/-- Two segments tied under the status comparator. -/
def keyEq (cy : ℚ) (s t : Seg) : Prop := ¬ keyLt cy s t ∧ ¬ keyLt cy t s

instance (cy : ℚ) (s t : Seg) : Decidable (keyEq cy s t) := by
  unfold keyEq; infer_instance

/-- The point of a segment on the sweep line at height y
(status_compare::isect_sweep of maxtri.cc line 49). -/
def station (s : Seg) (y : ℚ) : Pt := ⟨xAt s y, y⟩

/-- Sweep events: a triangle vertex event (triangle plus vertex rank 0,
1 or 2 for TOP, MIDDLE, BOTTOM) or an intersection event identified by
its point. -/
inductive Ev where
  | vert (t : Triangle) (rank : ℕ)
  | isect (p : Pt)
deriving DecidableEq, Repr

/-- The point of an event, used for the queue order. -/
def evPt : Ev → Pt
  | Ev.vert t 0 => t.v0
  | Ev.vert t 1 => t.v1
  | Ev.vert t _ => t.v2
  | Ev.isect p => p

/-- Modelled from the spec: the event queue pop of the missing maxtri.h.
All events are merged under the sweep order of points (spec section
4.1); the first sweep-minimal event of the queue list is popped, so ties
are broken by insertion order. -/
def popMin : List Ev → Option (Ev × List Ev)
  | [] => Option.none
  | e :: es =>
    match popMin es with
    | Option.none => some (e, [])
    | some (m, r) =>
      if sweepLt (evPt m) (evPt e) then some (m, e :: r) else some (e, es)

/-- The full engine state: the Sweep Status (a list sorted left to
right), the current sweep position, the Intersection Index (point keyed
association list), the Event Queue, the Overlap Graph (normalized id
pairs), the input triangles and the accumulated solutions (each solution
recorded as the clique triangle list handed to the polygon intersection
collaborator). -/
structure State where
  status : List Seg
  sweep : Pt
  ix : List (Pt × List Seg)
  queue : List Ev
  graph : List (ℕ × ℕ)
  tris : List Triangle
  sols : List (List Triangle)
deriving DecidableEq, Repr

/-- Find the aggregated event stored for a point in the Intersection
Index. -/
def ixFind : List (Pt × List Seg) → Pt → Option (List Seg)
  | [], _ => Option.none
  | (q, e) :: rest, p => if q = p then some e else ixFind rest p

/-- Add a segment to an aggregated event, keeping insertion order and
dropping duplicates (the unordered_set of IXEvent). -/
def addSeg (l : List Seg) (s : Seg) : List Seg :=
  if s ∈ l then l else l ++ [s]

/-- Record in the Intersection Index that the pair (s, t) also forms the
crossing at point p (IXEvent::insert). -/
def ixAddPair : List (Pt × List Seg) → Pt → Seg → Seg → List (Pt × List Seg)
  | [], _, _, _ => []
  | (q, e) :: rest, p, s, t =>
    if q = p then (q, addSeg (addSeg e s) t) :: rest
    else (q, e) :: ixAddPair rest p s t

/-- One iteration of the detection loop of MaxTri::intersect_range
(maxtri.cc lines 52-90): classify the pair, and if it is a proper
crossing strictly below the current station of the inspected segment,
record it in the Intersection Index — enqueuing an intersection event
only on the first discovery at that point. -/
def detectStep (c : Seg) (st : State) (b : Seg) : State :=
  if (segSegInt c b).1 = ICode.proper ∧
      sweepLt (station c st.sweep.y) (segSegInt c b).2 then
    match ixFind st.ix (segSegInt c b).2 with
    | some _ => { st with ix := ixAddPair st.ix (segSegInt c b).2 c b }
    | Option.none =>
      { st with
        ix := st.ix ++ [((segSegInt c b).2, addSeg (addSeg [] c) b)],
        queue := st.queue ++ [Ev.isect (segSegInt c b).2] }
  else st

/-- MaxTri::intersect_range: check the inspected segment against every
candidate. -/
def detectRange (c : Seg) (cands : List Seg) (st : State) : State :=
  cands.foldl (detectStep c) st

/-- The tied run immediately left of the equal-range of c, in
right-to-left order (the reverse iteration of MaxTri::check_intersections,
maxtri.cc lines 131-153). -/
def leftRun (cy : ℚ) (l : List Seg) (c : Seg) : List Seg :=
  match (l.filter (fun x => decide (keyLt cy x c))).getLast? with
  | Option.none => []
  | some m =>
    ((l.filter (fun x => decide (keyLt cy x c))).filter
      (fun x => decide (keyEq cy x m))).reverse

/-- The tied run immediately right of the equal-range of c
(maxtri.cc lines 155-172). -/
def rightRun (cy : ℚ) (l : List Seg) (c : Seg) : List Seg :=
  match (l.filter (fun x => decide (keyLt cy c x))).head? with
  | Option.none => []
  | some m =>
    (l.filter (fun x => decide (keyLt cy c x))).filter
      (fun x => decide (keyEq cy x m))

/-- MaxTri::check_intersections (maxtri.cc lines 94-173): check the
segment against the adjacent tied run on each side, skipping its own
equal-range. -/
def checkIntersections (st : State) (c : Seg) : State :=
  let cy := st.sweep.y
  let st1 := detectRange c (leftRun cy st.status c) st
  detectRange c (rightRun cy st1.status c) st1

/-- Insert a segment into the status list at the upper bound of its
equal-range (multiset insertion, maxtri.cc line 185 comment). -/
def insertUB (cy : ℚ) (s : Seg) : List Seg → List Seg
  | [] => [s]
  | x :: xs => if keyLt cy s x then s :: x :: xs else x :: insertUB cy s xs

/-- MaxTri::insert_edge (maxtri.cc lines 175-189): insert then check
adjacency around the inserted edge. -/
def insertEdge (st : State) (e : Seg) : State :=
  let st1 := { st with status := insertUB st.sweep.y e st.status }
  checkIntersections st1 e

/-- Check adjacency around a neighbor when it exists. -/
def optCheck (st : State) (o : Option Seg) : State :=
  match o with
  | some x => checkIntersections st x
  | Option.none => st

/-- MaxTri::remove_edge (maxtri.cc lines 191-235): locate the exact edge
(find_unique), erase it, then check adjacency of the two new neighbors.
Returns none when the edge is absent (the assertion at line 209: an
unrecoverable fault per spec section 7). -/
def removeEdge (st : State) (e : Seg) : Option State :=
  match st.status.findIdx? (fun x => decide (x = e)) with
  | Option.none => Option.none
  | some k =>
    if k = 0 then
      some (optCheck { st with status := st.status.eraseIdx k }
        ((st.status.eraseIdx k).get? 0))
    else
      some (optCheck
        (optCheck { st with status := st.status.eraseIdx k }
          ((st.status.eraseIdx k).get? (k - 1)))
        ((st.status.eraseIdx k).get? k))

/-- The graph phase of MaxTri::handle_intersection (maxtri.cc lines
267-283): for every ordered pair of distinct segments of the aggregated
event that compare unequal under the status comparator at the current
(pre-update) sweep position, mark their owners adjacent. -/
def addE (g : List (ℕ × ℕ)) (i j : ℕ) : List (ℕ × ℕ) :=
  if (min i j, max i j) ∈ g then g else g ++ [(min i j, max i j)]

/-- All graph edges contributed while removing the event segments
(the nested loop of maxtri.cc lines 267-283). -/
def graphPhase (cy : ℚ) (segs : List Seg) (g : List (ℕ × ℕ)) : List (ℕ × ℕ) :=
  segs.foldl
    (fun g1 s =>
      segs.foldl
        (fun g2 t =>
          if t ≠ s ∧ (keyLt cy s t ∨ keyLt cy t s) then addE g2 s.owner t.owner
          else g2)
        g1)
    g

/-- Erase each event segment from the status by identity; none when one
is absent (the debug failure at maxtri.cc line 289). -/
def eraseSegs (st : State) : List Seg → Option State
  | [] => some st
  | s :: rest =>
    match st.status.findIdx? (fun x => decide (x = s)) with
    | Option.none => Option.none
    | some k => eraseSegs { st with status := st.status.eraseIdx k } rest

/-- MaxTri::handle_intersection (maxtri.cc lines 237-338): look up the
aggregated event, mark the adjacencies, remove the contributing segments
under the old order, advance the sweep to the intersection point,
re-insert the segments under the new order and re-check each of them for
its next crossing. -/
def handleIntersection (st : State) (p : Pt) : Option State :=
  match ixFind st.ix p with
  | Option.none => Option.none
  | some segs =>
    match eraseSegs { st with graph := graphPhase st.sweep.y segs st.graph } segs with
    | Option.none => Option.none
    | some st2 =>
      some (segs.foldl checkIntersections
        { st2 with
            sweep := p
            status := segs.foldl (fun l s => insertUB p.y s l) st2.status })

/-- MaxTri::handle_tripoint (maxtri.cc lines 340-374): advance the sweep
to the vertex, then drive the per-triangle edge lifecycle. -/
def handleTripoint (st : State) (t : Triangle) (rank : ℕ) : Option State :=
  match rank with
  | 0 => some (insertEdge (insertEdge { st with sweep := t.v0 } t.e0) t.e1)
  | 1 => (removeEdge { st with sweep := t.v1 } t.e0).map (fun s => insertEdge s t.e2)
  | _ => (removeEdge { st with sweep := t.v2 } t.e1).bind (fun s => removeEdge s t.e2)

/-- MaxTri::handle_event (maxtri.cc lines 519-552). -/
def handleEvent (st : State) : Ev → Option State
  | Ev.vert t r => handleTripoint st t r
  | Ev.isect p => handleIntersection st p

/-- Result of driving the queue: drained, invariant fault, or out of
fuel. -/
inductive RunRes where
  | done (st : State)
  | fault
  | fuelOut
deriving DecidableEq, Repr

/-- Drain the event queue with the given amount of fuel. -/
def loop : ℕ → State → RunRes
  | 0, _ => RunRes.fuelOut
  | n + 1, st =>
    match popMin st.queue with
    | Option.none => RunRes.done st
    | some (ev, rest) =>
      match handleEvent { st with queue := rest } ev with
      | Option.none => RunRes.fault
      | some st2 => loop n st2

/-- Rank three raw vertices TOP, MIDDLE, BOTTOM under the sweep order
(spec section 3: ranked at construction, never mutated afterward). -/
def rank3 (p q r : Pt) : Pt × Pt × Pt :=
  let s2 := fun (u v : Pt) => if sweepLt v u then (v, u) else (u, v)
  let (a1, b1) := s2 p q
  let (b2, c2) := s2 b1 r
  let (a3, b3) := s2 a1 b2
  (a3, b3, c2)

/-- Build the ranked triangle list from raw vertex triples, assigning
dense ids by position (spec sections 3 and 6). -/
def mkTris (raw : List (Pt × Pt × Pt)) : List Triangle :=
  raw.enum.map (fun pr =>
    let v := rank3 pr.2.1 pr.2.2.1 pr.2.2.2
    ⟨v.1, v.2.1, v.2.2, pr.1⟩)

/-- Modelled from the spec: the initial state of one run — each triangle
contributes its three vertex events in increasing rank (spec section
4.1); all other components start empty. -/
def initState (raw : List (Pt × Pt × Pt)) : State :=
  let tris := mkTris raw
  { status := [],
    sweep := ⟨0, 0⟩,
    ix := [],
    queue := (tris.map (fun t => [Ev.vert t 0, Ev.vert t 1, Ev.vert t 2])).flatten,
    graph := [],
    tris := tris,
    sols := [] }

/-- Adjacency in the Overlap Graph (normalized pairs). -/
def adj (g : List (ℕ × ℕ)) (i j : ℕ) : Prop := (min i j, max i j) ∈ g

instance (g : List (ℕ × ℕ)) (i j : ℕ) : Decidable (adj g i j) := by
  unfold adj; infer_instance

/-- A list of vertex ids that is pairwise connected in the graph. -/
def isClique (g : List (ℕ × ℕ)) (c : List ℕ) : Prop :=
  c.Pairwise (adj g)

instance (g : List (ℕ × ℕ)) (c : List ℕ) : Decidable (isClique g c) := by
  unfold isClique; infer_instance

/-- A maximal clique among the vertices 0..n-1: no further vertex is
adjacent to all its members. -/
def isMaxClique (g : List (ℕ × ℕ)) (n : ℕ) (c : List ℕ) : Prop :=
  isClique g c ∧ (∀ x ∈ c, x < n) ∧
    ∀ v ∈ List.range n, v ∉ c → ∃ u ∈ c, ¬ adj g u v

instance (g : List (ℕ × ℕ)) (n : ℕ) (c : List ℕ) :
    Decidable (isMaxClique g n c) := by
  unfold isMaxClique; infer_instance

/-- Modelled from the documented contract of the clique enumeration
collaborator (boost bron_kerbosch_all_cliques as called at maxtri.cc
line 632): visit every maximal clique with at least two vertices — the
default minimum clique size of the collaborator is two, so singleton
cliques of isolated vertices are never visited — in a deterministic
implementation-defined order, here the sublist order of the vertex
range. -/
def cliquesList (g : List (ℕ × ℕ)) (n : ℕ) : List (List ℕ) :=
  (List.range n).sublists.filter
    (fun c => decide (isMaxClique g n c) && decide (2 ≤ c.length))

/-- The clique visitor of maxtri.cc lines 573-600: keep the first
visited clique that is strictly larger than everything seen before. -/
def visitFold (acc : ℕ × List ℕ) (c : List ℕ) : ℕ × List ℕ :=
  if acc.1 < c.length then (c.length, c) else acc

/-- The clique chosen by MaxTri::finalize (maxtri.cc lines 629-632):
fold the visitor over the enumeration, starting from the empty clique. -/
def chooseClique (g : List (ℕ × ℕ)) (n : ℕ) : List ℕ :=
  ((cliquesList g n).foldl visitFold (0, [])).2

/-- MaxTri::finalize (maxtri.cc lines 603-665): choose the clique, pull
its triangles in ascending id order and append one solution — the
triangle list handed to the polygon intersection collaborator. -/
def finalize (st : State) : State :=
  let chosen := chooseClique st.graph st.tris.length
  { st with sols := st.sols ++ [chosen.filterMap (fun i => st.tris.get? i)] }

/-- The number of triangle edges of the input. -/
def allEdges (tris : List Triangle) : List Seg :=
  (tris.map Triangle.edges).flatten

/-- All candidate intersection points: the proper crossings of pairs of
input edges. -/
def candPts (tris : List Triangle) : List Pt :=
  (((allEdges tris).map (fun e => (allEdges tris).map (fun f => (e, f)))).flatten.filterMap
    (fun pr =>
      let r := segSegInt pr.1 pr.2
      if r.1 = ICode.proper then some r.2 else Option.none)).dedup

/-- Fuel that always suffices to drain the queue (proved below). -/
def fuelFor (raw : List (Pt × Pt × Pt)) : ℕ :=
  3 * raw.length + (candPts (mkTris raw)).length + 1

/-- One full engine run: drain the queue, then finalize.  Returns none
on an invariant fault (never on fuel, by the termination theorem). -/
def pipeline (raw : List (Pt × Pt × Pt)) : Option State :=
  match loop (fuelFor raw) (initState raw) with
  | RunRes.done st => some (finalize st)
  | _ => Option.none

/-- Decidable point-in-closed-triangle test over the rationals (used to
compare solution regions pointwise). -/
def inTri (t : Triangle) (p : Pt) : Prop :=
  (0 ≤ orient t.v0 t.v1 p ∧ 0 ≤ orient t.v1 t.v2 p ∧ 0 ≤ orient t.v2 t.v0 p) ∨
  (orient t.v0 t.v1 p ≤ 0 ∧ orient t.v1 t.v2 p ≤ 0 ∧ orient t.v2 t.v0 p ≤ 0)

instance (t : Triangle) (p : Pt) : Decidable (inTri t p) := by
  unfold inTri; infer_instance

/-- Modelled from the spec: the region computed by the polygon
intersection collaborator for a solution (spec sections 4.7 and 6),
as a pointwise membership predicate over the rationals: the fold of
pairwise intersection over the clique triangles, empty for an empty
collection. -/
def solMem (sol : List Triangle) (p : Pt) : Prop :=
  match sol with
  | [] => False
  | t :: ts => ts.foldl (fun acc u => acc ∧ inTri u p) (inTri t p)

/-- Decidability helper for the folded conjunction of solMem. -/
def solMemDecAux (p : Pt) :
    (ts : List Triangle) → (q : Prop) → Decidable q →
      Decidable (List.foldl (fun acc u => acc ∧ inTri u p) q ts)
  | [], _, dq => dq
  | u :: us, q, dq =>
    solMemDecAux p us (q ∧ inTri u p) (@instDecidableAnd _ _ dq inferInstance)

instance (sol : List Triangle) (p : Pt) : Decidable (solMem sol p) := by
  unfold solMem
  match sol with
  | [] => infer_instance
  | t :: ts => exact solMemDecAux p ts (inTri t p) inferInstance

/-- The closed triangle as a subset of the real plane (for the area
statements; coordinates are coerced from the rationals). -/
def triSetR (t : Triangle) : Set (ℝ × ℝ) :=
  { p | ((t.v1.x - t.v0.x) * (p.2 - (t.v0.y : ℝ)) - (t.v1.y - t.v0.y) * (p.1 - (t.v0.x : ℝ)) ≥ 0 ∧
         (t.v2.x - t.v1.x) * (p.2 - (t.v1.y : ℝ)) - (t.v2.y - t.v1.y) * (p.1 - (t.v1.x : ℝ)) ≥ 0 ∧
         (t.v0.x - t.v2.x) * (p.2 - (t.v2.y : ℝ)) - (t.v0.y - t.v2.y) * (p.1 - (t.v2.x : ℝ)) ≥ 0) ∨
        ((t.v1.x - t.v0.x) * (p.2 - (t.v0.y : ℝ)) - (t.v1.y - t.v0.y) * (p.1 - (t.v0.x : ℝ)) ≤ 0 ∧
         (t.v2.x - t.v1.x) * (p.2 - (t.v1.y : ℝ)) - (t.v2.y - t.v1.y) * (p.1 - (t.v1.x : ℝ)) ≤ 0 ∧
         (t.v0.x - t.v2.x) * (p.2 - (t.v2.y : ℝ)) - (t.v0.y - t.v2.y) * (p.1 - (t.v2.x : ℝ)) ≤ 0) }

/-- Modelled from the spec: the solution region over the real plane —
the intersection of the clique triangles, empty for an empty clique
(the default-constructed polygon of maxtri.cc line 641 folded over no
triangles). -/
def solSetR (sol : List Triangle) : Set (ℝ × ℝ) :=
  match sol with
  | [] => ∅
  | t :: ts => ts.foldl (fun acc u => acc ∩ triSetR u) (triSetR t)

/-- Brute-force crossing check between two triangles: some pair of their
3 x 3 edges classifies as a proper crossing (spec section 8). -/
def bruteCross (t u : Triangle) : Prop :=
  ∃ e ∈ t.edges, ∃ f ∈ u.edges, (segSegInt e f).1 = ICode.proper

instance (t u : Triangle) : Decidable (bruteCross t u) := by
  unfold bruteCross; infer_instance

/-- The state, segments and discharge facts for the C4 witness: a
vertical segment crossed properly at height 1 by a transversal, with
the sweep at height 0. -/
def wSt : State := ⟨[], ⟨0, 0⟩, [], [], [], [], []⟩

def wC : Seg := ⟨⟨0, 0⟩, ⟨0, 2⟩, 0, 1⟩

def wB : Seg := ⟨⟨-1, 0⟩, ⟨1, 2⟩, 1, 1⟩

/-- The key list of the Intersection Index. -/
def ixKeys (st : State) : List Pt := st.ix.map Prod.fst

/-- All maximal cliques among candidate supersets of d. -/
def superCliques (g : List (ℕ × ℕ)) (n : ℕ) (d : List ℕ) : List (List ℕ) :=
  (List.range n).sublists.filter
    (fun c => decide (isClique g c) && decide (∀ x ∈ d, x ∈ c))

/-- A longest clique among the candidate supersets of d. -/
def bestSuper (g : List (ℕ × ℕ)) (n : ℕ) (d : List ℕ) : List ℕ :=
  (superCliques g n d).foldl (fun acc c => if acc.length < c.length then c else acc) d

/-- The canonical insertion of a vertex into a vertex set inside the
range: filter the range by membership in the set or equality with the
vertex. -/
def insVert (n : ℕ) (c : List ℕ) (v : ℕ) : List ℕ :=
  (List.range n).filter (fun x => decide (x ∈ c) || decide (x = v))

/-! ### Concrete runs used as counterexamples and witnesses -/

/-- A triangle poked through by triB at (0,4) and (0,8). -/
def triA : Pt × Pt × Pt := (⟨0, 0⟩, ⟨-12, 2⟩, ⟨0, 12⟩)

/-- A triangle whose left corner crosses the spanning edge of triA. -/
def triB : Pt × Pt × Pt := (⟨4, 2⟩, ⟨-4, 6⟩, ⟨4, 10⟩)

/-- A far-left blocker triangle whose MIDDLE vertex event at height 4
advances the sweep to the height of the crossing (0,4) just before that
crossing is processed. -/
def blockC : Pt × Pt × Pt := (⟨-18, 2⟩, ⟨-16, 4⟩, ⟨-18, 6⟩)

/-- A far-left blocker triangle whose MIDDLE vertex event at height 8
advances the sweep to the height of the crossing (0,8) just before that
crossing is processed. -/
def blockD : Pt × Pt × Pt := (⟨-24, 6⟩, ⟨-22, 8⟩, ⟨-24, 10⟩)

/-- A second crossing pair far to the right of triA and triB, with all
event heights odd so no sweep position ties occur. -/
def farC : Pt × Pt × Pt := (⟨40, 1⟩, ⟨28, 3⟩, ⟨40, 13⟩)

/-- The partner of farC, crossing it at (40,5) and (40,9). -/
def farD : Pt × Pt × Pt := (⟨44, 3⟩, ⟨36, 7⟩, ⟨44, 11⟩)

/-- The run on the single triangle triA. -/
def oneRun : Option State := pipeline [triA]

/-- The run on the two crossing pairs in one input order. -/
def pairRun1 : Option State := pipeline [triA, triB, farC, farD]

/-- The run on the same four triangles with the pairs swapped. -/
def pairRun2 : Option State := pipeline [farC, farD, triA, triB]

/-- The run on the crossing pair together with the two sweep-height
blockers. -/
def blockedRun : Option State := pipeline [triA, triB, blockC, blockD]

/-- The geometric content of a triangle, forgetting its id. -/
def triGeom (t : Triangle) : Pt × Pt × Pt := (t.v0, t.v1, t.v2)

/-- Triangle A with id 0 (the ranked form of triA). -/
def wT1 : Triangle := ⟨⟨0, 0⟩, ⟨-12, 2⟩, ⟨0, 12⟩, 0⟩

/-- Triangle B with id 1 (the ranked form of triB). -/
def wT2 : Triangle := ⟨⟨4, 2⟩, ⟨-4, 6⟩, ⟨4, 10⟩, 1⟩

/-- Triangle A carrying id 1, as the second run labels it. -/
def wT1b : Triangle := ⟨⟨0, 0⟩, ⟨-12, 2⟩, ⟨0, 12⟩, 1⟩

/-- Triangle B carrying id 0, as the second run labels it. -/
def wT2b : Triangle := ⟨⟨4, 2⟩, ⟨-4, 6⟩, ⟨4, 10⟩, 0⟩

/-! ### Termination: the event count measure -/

/-- The candidate crossing points not yet recorded by the Intersection
Index. -/
def remCands (st : State) : ℕ :=
  ((candPts st.tris).filter (fun p => decide (p ∉ ixKeys st))).length

/-- The termination measure: pending events plus unrecorded candidate
crossing points.  Every handled event strictly decreases it. -/
def mu (st : State) : ℕ := st.queue.length + remCands st

/-- The data invariant of a run: active and aggregated segments are
input edges, and queued vertex events carry input triangles. -/
def Inv (st : State) : Prop :=
  (∀ s ∈ st.status, s ∈ allEdges st.tris) ∧
  (∀ e ∈ st.ix, ∀ s ∈ e.2, s ∈ allEdges st.tris) ∧
  (∀ t r, Ev.vert t r ∈ st.queue → t ∈ st.tris)

/-! ### Bridging lemmas: the computable clones agree with the field
operations of the rationals. -/

theorem qadd_eq (a b : ℚ) : qadd a b = a + b := by
  unfold qadd
  rw [Rat.mkRat_eq_divInt, Rat.divInt_eq_div]
  have ha : (a.den : ℚ) ≠ 0 := Nat.cast_ne_zero.mpr a.den_nz
  have hb : (b.den : ℚ) ≠ 0 := Nat.cast_ne_zero.mpr b.den_nz
  conv_rhs => rw [← Rat.num_div_den a, ← Rat.num_div_den b]
  push_cast
  field_simp
  try ring

theorem qsub_eq (a b : ℚ) : qsub a b = a - b := by
  unfold qsub
  rw [Rat.mkRat_eq_divInt, Rat.divInt_eq_div]
  have ha : (a.den : ℚ) ≠ 0 := Nat.cast_ne_zero.mpr a.den_nz
  have hb : (b.den : ℚ) ≠ 0 := Nat.cast_ne_zero.mpr b.den_nz
  conv_rhs => rw [← Rat.num_div_den a, ← Rat.num_div_den b]
  push_cast
  field_simp
  try ring

theorem qmul_eq (a b : ℚ) : qmul a b = a * b := by
  unfold qmul
  rw [Rat.mkRat_eq_divInt, Rat.divInt_eq_div]
  have ha : (a.den : ℚ) ≠ 0 := Nat.cast_ne_zero.mpr a.den_nz
  have hb : (b.den : ℚ) ≠ 0 := Nat.cast_ne_zero.mpr b.den_nz
  conv_rhs => rw [← Rat.num_div_den a, ← Rat.num_div_den b]
  push_cast
  field_simp
  try ring

theorem qdiv_eq (a b : ℚ) : qdiv a b = a / b := by
  unfold qdiv
  rw [Rat.divInt_eq_div]
  by_cases h : b = 0
  · subst h; simp
  · have hb : (b.num : ℚ) ≠ 0 := by
      simpa using Rat.num_ne_zero.mpr h
    have ha : (a.den : ℚ) ≠ 0 := Nat.cast_ne_zero.mpr a.den_nz
    have hbd : (b.den : ℚ) ≠ 0 := Nat.cast_ne_zero.mpr b.den_nz
    conv_rhs => rw [← Rat.num_div_den a, ← Rat.num_div_den b]
    push_cast
    field_simp
    try ring

/-! ### Frame lemmas for intersection detection -/

theorem detectStep_frame (c : Seg) (st : State) (b : Seg) :
    (detectStep c st b).status = st.status ∧
    (detectStep c st b).graph = st.graph ∧
    (detectStep c st b).sweep = st.sweep ∧
    (detectStep c st b).tris = st.tris ∧
    (detectStep c st b).sols = st.sols := by
  unfold detectStep
  split
  · split <;> exact ⟨rfl, rfl, rfl, rfl, rfl⟩
  · exact ⟨rfl, rfl, rfl, rfl, rfl⟩

theorem detectRange_frame (c : Seg) (cands : List Seg) (st : State) :
    (detectRange c cands st).status = st.status ∧
    (detectRange c cands st).graph = st.graph ∧
    (detectRange c cands st).sweep = st.sweep ∧
    (detectRange c cands st).tris = st.tris ∧
    (detectRange c cands st).sols = st.sols := by
  induction cands generalizing st with
  | nil => exact ⟨rfl, rfl, rfl, rfl, rfl⟩
  | cons b rest ih =>
    have h1 := detectStep_frame c st b
    have h2 := ih (detectStep c st b)
    unfold detectRange at h2 ⊢
    simp only [List.foldl]
    exact ⟨h2.1.trans h1.1, h2.2.1.trans h1.2.1, h2.2.2.1.trans h1.2.2.1,
      h2.2.2.2.1.trans h1.2.2.2.1, h2.2.2.2.2.trans h1.2.2.2.2⟩

theorem checkIntersections_frame (st : State) (c : Seg) :
    (checkIntersections st c).status = st.status ∧
    (checkIntersections st c).graph = st.graph ∧
    (checkIntersections st c).sweep = st.sweep ∧
    (checkIntersections st c).tris = st.tris ∧
    (checkIntersections st c).sols = st.sols := by
  unfold checkIntersections
  have h1 := detectRange_frame c (leftRun st.sweep.y st.status c) st
  have h2 := detectRange_frame c
    (rightRun st.sweep.y (detectRange c (leftRun st.sweep.y st.status c) st).status c)
    (detectRange c (leftRun st.sweep.y st.status c) st)
  exact ⟨h2.1.trans h1.1, h2.2.1.trans h1.2.1, h2.2.2.1.trans h1.2.2.1,
    h2.2.2.2.1.trans h1.2.2.2.1, h2.2.2.2.2.trans h1.2.2.2.2⟩

/-- C10: intersection detection never mutates the Sweep Status — for
every call, checkIntersections and detectRange (intersect_range) leave
the active edge list, its order, the graph, the sweep position, the
triangles and the solutions unchanged, touching only the Intersection
Index and the Event Queue. -/
theorem C10_detection_frame (st : State) (c : Seg) (cands : List Seg) :
    (detectRange c cands st).status = st.status ∧
    (detectRange c cands st).graph = st.graph ∧
    (detectRange c cands st).sweep = st.sweep ∧
    (detectRange c cands st).tris = st.tris ∧
    (detectRange c cands st).sols = st.sols ∧
    (checkIntersections st c).status = st.status ∧
    (checkIntersections st c).graph = st.graph ∧
    (checkIntersections st c).sweep = st.sweep ∧
    (checkIntersections st c).tris = st.tris ∧
    (checkIntersections st c).sols = st.sols := by
  have h1 := detectRange_frame c cands st
  have h2 := checkIntersections_frame st c
  exact ⟨h1.1, h1.2.1, h1.2.2.1, h1.2.2.2.1, h1.2.2.2.2,
    h2.1, h2.2.1, h2.2.2.1, h2.2.2.2.1, h2.2.2.2.2⟩

/-! ### Geometry of the crossing point relative to the sweep station -/

theorem xAt_eq (s : Seg) (y : ℚ) :
    xAt s y = s.a.x + (y - s.a.y) * (s.b.x - s.a.x) / (s.b.y - s.a.y) := by
  simp [xAt, qadd_eq, qdiv_eq, qmul_eq, qsub_eq]

theorem ssPt_x (s t : Seg) :
    (ssPt s t).x = s.a.x + ssL s t * (s.b.x - s.a.x) := by
  simp [ssPt, qadd_eq, qmul_eq, qsub_eq]

theorem ssPt_y (s t : Seg) :
    (ssPt s t).y = s.a.y + ssL s t * (s.b.y - s.a.y) := by
  simp [ssPt, qadd_eq, qmul_eq, qsub_eq]

/-- When the classification is the proper code, the reported crossing
point is the parametric point ssPt. -/
theorem segSegInt_proper_pt (s t : Seg)
    (h : (segSegInt s t).1 = ICode.proper) : (segSegInt s t).2 = ssPt s t := by
  unfold segSegInt at h ⊢
  split_ifs at h ⊢
  simp_all

/-- The crossing point lies on the supporting line of the first
segment, so if its height equals the sweep height, its x position is
exactly the station of that segment (no x tie-break can fire). -/
theorem ssPt_at_sweep (s t : Seg) (cy : ℚ) (hnh : s.a.y ≠ s.b.y)
    (hy : (ssPt s t).y = cy) : (ssPt s t).x = xAt s cy := by
  have hd : s.b.y - s.a.y ≠ 0 := sub_ne_zero.mpr (Ne.symm hnh)
  rw [ssPt_x, xAt_eq, ← hy, ssPt_y]
  field_simp
  ring

/-- For a crossing point on a non-horizontal segment, being strictly
after the station of that segment in the sweep order is the same as
lying at a strictly larger height. -/
theorem station_sweepLt_iff (s t : Seg) (cy : ℚ) (hnh : s.a.y ≠ s.b.y) :
    sweepLt (station s cy) (ssPt s t) ↔ cy < (ssPt s t).y := by
  constructor
  · intro h
    rcases h with h | ⟨hyeq, hxlt⟩
    · exact h
    · exfalso
      have := ssPt_at_sweep s t cy hnh hyeq.symm
      rw [this] at hxlt
      exact lt_irrefl _ hxlt
  · intro h
    exact Or.inl h

/-- C4: classification results other than a proper crossing never queue
an event nor touch the graph, and an event is queued only for a proper
crossing whose point lies strictly below (strictly higher y than) the
current sweep position. -/
theorem C4_classification_gate (st : State) (c b : Seg)
    (hnh : c.a.y ≠ c.b.y) :
    (((segSegInt c b).1 = ICode.none ∨ (segSegInt c b).1 = ICode.vert ∨
        (segSegInt c b).1 = ICode.edge) → detectStep c st b = st) ∧
    (detectStep c st b).graph = st.graph ∧
    ((detectStep c st b).queue ≠ st.queue →
      (segSegInt c b).1 = ICode.proper ∧ st.sweep.y < (segSegInt c b).2.y) ∧
    ((segSegInt c b).1 = ICode.proper →
      (sweepLt (station c st.sweep.y) (segSegInt c b).2 ↔
        st.sweep.y < (segSegInt c b).2.y)) := by
  refine ⟨?_, (detectStep_frame c st b).2.1, ?_, ?_⟩
  · intro h
    unfold detectStep
    rw [if_neg]
    rintro ⟨hp, -⟩
    rcases h with h | h | h <;> rw [h] at hp <;> exact ICode.noConfusion hp
  · intro hq
    by_cases hcond : (segSegInt c b).1 = ICode.proper ∧
        sweepLt (station c st.sweep.y) (segSegInt c b).2
    · refine ⟨hcond.1, ?_⟩
      have hpt := segSegInt_proper_pt c b hcond.1
      have := hcond.2
      rw [hpt] at this ⊢
      exact (station_sweepLt_iff c b st.sweep.y hnh).mp this
    · exfalso
      apply hq
      unfold detectStep
      rw [if_neg hcond]
  · intro hp
    have hpt := segSegInt_proper_pt c b hp
    rw [hpt]
    exact station_sweepLt_iff c b st.sweep.y hnh


theorem C4_classification_gate_witness :
    (0 : ℚ) ≠ 2 ∧ (segSegInt wC wB).1 = ICode.proper ∧
      (sweepLt (station wC (0 : ℚ)) (segSegInt wC wB).2 ↔
        (0 : ℚ) < (segSegInt wC wB).2.y) := by
  refine ⟨by norm_num, by decide, ?_⟩
  exact (C4_classification_gate wSt wC wB (by decide)).2.2.2 (by decide)

/-! ### The Intersection Index: one entry per point, enqueue on first
discovery only -/


theorem ixFind_none_iff (ix : List (Pt × List Seg)) (p : Pt) :
    ixFind ix p = Option.none ↔ p ∉ ix.map Prod.fst := by
  induction ix with
  | nil => simp [ixFind]
  | cons e rest ih =>
    obtain ⟨q, ev⟩ := e
    by_cases h : q = p
    · subst h
      simp [ixFind]
    · simp [ixFind, h, ih, Ne.symm h]

theorem ixAddPair_keys (ix : List (Pt × List Seg)) (p : Pt) (s t : Seg) :
    (ixAddPair ix p s t).map Prod.fst = ix.map Prod.fst := by
  induction ix with
  | nil => rfl
  | cons e rest ih =>
    obtain ⟨q, ev⟩ := e
    by_cases h : q = p <;> simp [ixAddPair, h, ih]

/-- Detection preserves key uniqueness of the Intersection Index. -/
theorem detectStep_keysND (c : Seg) (st : State) (b : Seg)
    (h : (ixKeys st).Nodup) : (ixKeys (detectStep c st b)).Nodup := by
  unfold detectStep
  split
  · rcases hfind : ixFind st.ix (segSegInt c b).2 with _ | e
    · have hmem := (ixFind_none_iff st.ix (segSegInt c b).2).mp hfind
      simp only [ixKeys, List.map_append, List.map_cons, List.map_nil]
      rw [List.nodup_append]
      refine ⟨h, List.nodup_singleton _, ?_⟩
      intro a ha hb
      simp only [List.mem_singleton] at hb
      subst hb
      exact hmem ha
    · simpa [ixKeys, ixAddPair_keys] using h
  · exact h

theorem detectRange_keysND (c : Seg) (cands : List Seg) (st : State)
    (h : (ixKeys st).Nodup) : (ixKeys (detectRange c cands st)).Nodup := by
  induction cands generalizing st with
  | nil => exact h
  | cons b rest ih =>
    unfold detectRange at ih ⊢
    simp only [List.foldl]
    exact ih (detectStep c st b) (detectStep_keysND c st b h)

theorem checkIntersections_keysND (st : State) (c : Seg)
    (h : (ixKeys st).Nodup) : (ixKeys (checkIntersections st c)).Nodup := by
  unfold checkIntersections
  exact detectRange_keysND _ _ _ (detectRange_keysND _ _ _ h)

theorem insertEdge_keysND (st : State) (e : Seg)
    (h : (ixKeys st).Nodup) : (ixKeys (insertEdge st e)).Nodup :=
  checkIntersections_keysND _ _ h

theorem optCheck_keysND (st : State) (o : Option Seg)
    (h : (ixKeys st).Nodup) : (ixKeys (optCheck st o)).Nodup := by
  cases o with
  | none => exact h
  | some x => exact checkIntersections_keysND st x h

theorem removeEdge_keysND (st : State) (e : Seg) (st2 : State)
    (hr : removeEdge st e = some st2)
    (h : (ixKeys st).Nodup) : (ixKeys st2).Nodup := by
  unfold removeEdge at hr
  split at hr
  · exact Option.noConfusion hr
  · split at hr <;> simp only [Option.some.injEq] at hr <;> subst hr
    · exact optCheck_keysND _ _ h
    · exact optCheck_keysND _ _ (optCheck_keysND _ _ h)

theorem eraseSegs_keys (st : State) (segs : List Seg) (st2 : State)
    (hr : eraseSegs st segs = some st2) : st2.ix = st.ix := by
  induction segs generalizing st with
  | nil =>
    unfold eraseSegs at hr
    simp only [Option.some.injEq] at hr
    subst hr; rfl
  | cons s rest ih =>
    unfold eraseSegs at hr
    split at hr
    · exact Option.noConfusion hr
    · rename_i k hk
      have := ih { st with status := st.status.eraseIdx k } hr
      exact this

theorem foldCheck_keysND (segs : List Seg) (st : State)
    (h : (ixKeys st).Nodup) : (ixKeys (segs.foldl checkIntersections st)).Nodup := by
  induction segs generalizing st with
  | nil => exact h
  | cons s rest ih =>
    simp only [List.foldl]
    exact ih _ (checkIntersections_keysND st s h)

theorem handleIntersection_keysND (st : State) (p : Pt) (st2 : State)
    (hr : handleIntersection st p = some st2)
    (h : (ixKeys st).Nodup) : (ixKeys st2).Nodup := by
  unfold handleIntersection at hr
  split at hr
  · exact Option.noConfusion hr
  · split at hr
    · exact Option.noConfusion hr
    · rename_i segs hfind stE herase
      simp only [Option.some.injEq] at hr
      subst hr
      apply foldCheck_keysND
      have hkeys := eraseSegs_keys _ _ _ herase
      show (stE.ix.map Prod.fst).Nodup
      rw [hkeys]
      exact h

theorem handleTripoint_keysND (st : State) (t : Triangle) (r : ℕ) (st2 : State)
    (hr : handleTripoint st t r = some st2)
    (h : (ixKeys st).Nodup) : (ixKeys st2).Nodup := by
  unfold handleTripoint at hr
  match r, hr with
  | 0, hr =>
    simp only [Option.some.injEq] at hr
    subst hr
    exact insertEdge_keysND _ _ (insertEdge_keysND _ _ h)
  | 1, hr =>
    have hr2 : (removeEdge { st with sweep := t.v1 } t.e0).map
        (fun s => insertEdge s t.e2) = some st2 := hr
    rcases Option.map_eq_some'.mp hr2 with ⟨stR, hrm, hins⟩
    subst hins
    exact insertEdge_keysND _ _ (removeEdge_keysND _ _ _ hrm h)
  | (n + 2), hr =>
    have hr2 : (removeEdge { st with sweep := t.v2 } t.e1).bind
        (fun s => removeEdge s t.e2) = some st2 := hr
    rcases Option.bind_eq_some.mp hr2 with ⟨stR, hrm, hrm2⟩
    exact removeEdge_keysND _ _ _ hrm2 (removeEdge_keysND _ _ _ hrm h)

theorem handleEvent_keysND (st : State) (ev : Ev) (st2 : State)
    (hr : handleEvent st ev = some st2)
    (h : (ixKeys st).Nodup) : (ixKeys st2).Nodup := by
  cases ev with
  | vert t r => exact handleTripoint_keysND st t r st2 hr h
  | isect p => exact handleIntersection_keysND st p st2 hr h

theorem loop_keysND (n : ℕ) (st : State) (st2 : State)
    (hr : loop n st = RunRes.done st2)
    (h : (ixKeys st).Nodup) : (ixKeys st2).Nodup := by
  induction n generalizing st with
  | zero => exact RunRes.noConfusion hr
  | succ n ih =>
    unfold loop at hr
    split at hr
    · simp only [RunRes.done.injEq] at hr
      subst hr; exact h
    · split at hr
      · exact RunRes.noConfusion hr
      · rename_i ev rest hpop stN hh
        exact ih stN hr (handleEvent_keysND _ _ _ hh h)

/-- C5: discovery discipline of the Intersection Index — for an
actionable proper crossing, the first discovery at a point appends one
index entry and enqueues exactly one intersection event; a rediscovery
at an already known point leaves the queue and the key list unchanged
(only the aggregated segment set grows); and consequently, from the
start of any run to the drained state, the index holds at most one
entry per distinct point. -/
theorem C5_index_dedup (st : State) (c b : Seg)
    (hp : (segSegInt c b).1 = ICode.proper ∧
      sweepLt (station c st.sweep.y) (segSegInt c b).2) :
    (ixFind st.ix (segSegInt c b).2 = Option.none →
      ixKeys (detectStep c st b) = ixKeys st ++ [(segSegInt c b).2] ∧
      (detectStep c st b).queue = st.queue ++ [Ev.isect (segSegInt c b).2]) ∧
    (∀ e, ixFind st.ix (segSegInt c b).2 = some e →
      (detectStep c st b).queue = st.queue ∧
      ixKeys (detectStep c st b) = ixKeys st) ∧
    (∀ (raw : List (Pt × Pt × Pt)) (n : ℕ) (stF : State),
      loop n (initState raw) = RunRes.done stF → (ixKeys stF).Nodup) := by
  refine ⟨?_, ?_, ?_⟩
  · intro hnone
    unfold detectStep
    rw [if_pos hp, hnone]
    simp [ixKeys]
  · intro e hsome
    unfold detectStep
    rw [if_pos hp, hsome]
    simp [ixKeys, ixAddPair_keys]
  · intro raw n stF hdone
    exact loop_keysND n _ stF hdone (by simp [ixKeys, initState])

theorem C5_index_dedup_witness :
    ((segSegInt wC wB).1 = ICode.proper ∧
        sweepLt (station wC wSt.sweep.y) (segSegInt wC wB).2) ∧
      ixKeys (detectStep wC wSt wB) = ixKeys wSt ++ [(segSegInt wC wB).2] ∧
      (detectStep wC wSt wB).queue = wSt.queue ++ [Ev.isect (segSegInt wC wB).2] := by
  refine ⟨by decide, ?_⟩
  exact (C5_index_dedup wSt wC wB (by decide)).1 (by decide)

/-! ### The clique visitor fold and maximal clique enumeration -/

theorem foldVisit_mem (l : List (List ℕ)) (acc : ℕ × List ℕ) :
    (l.foldl visitFold acc).2 = acc.2 ∨ (l.foldl visitFold acc).2 ∈ l := by
  induction l generalizing acc with
  | nil => exact Or.inl rfl
  | cons c rest ih =>
    simp only [List.foldl]
    by_cases hlt : acc.1 < c.length
    · have hv : visitFold acc c = (c.length, c) := by
        unfold visitFold; rw [if_pos hlt]
      rw [hv]
      rcases ih (c.length, c) with h | h
      · exact Or.inr (by simp [h])
      · exact Or.inr (List.mem_cons_of_mem _ h)
    · have hv : visitFold acc c = acc := by
        unfold visitFold; rw [if_neg hlt]
      rw [hv]
      rcases ih acc with h | h
      · exact Or.inl h
      · exact Or.inr (List.mem_cons_of_mem _ h)

theorem foldVisit_le (l : List (List ℕ)) (acc : ℕ × List ℕ) :
    acc.1 ≤ (l.foldl visitFold acc).1 ∧
      ∀ c ∈ l, c.length ≤ (l.foldl visitFold acc).1 := by
  induction l generalizing acc with
  | nil => exact ⟨le_refl _, by simp⟩
  | cons c rest ih =>
    simp only [List.foldl]
    have h1 := ih (visitFold acc c)
    have hstep : acc.1 ≤ (visitFold acc c).1 ∧ c.length ≤ (visitFold acc c).1 := by
      unfold visitFold
      split
      · exact ⟨le_of_lt (by assumption), le_refl _⟩
      · exact ⟨le_refl _, le_of_not_lt (by assumption)⟩
    refine ⟨le_trans hstep.1 h1.1, ?_⟩
    intro d hd
    rcases List.mem_cons.mp hd with h | h
    · subst h; exact le_trans hstep.2 h1.1
    · exact h1.2 d h

theorem foldVisit_len (l : List (List ℕ)) (acc : ℕ × List ℕ)
    (h : acc.1 = acc.2.length) :
    (l.foldl visitFold acc).1 = (l.foldl visitFold acc).2.length := by
  induction l generalizing acc with
  | nil => exact h
  | cons c rest ih =>
    simp only [List.foldl]
    apply ih
    unfold visitFold
    split
    · rfl
    · exact h

theorem foldVisit_stable (l : List (List ℕ)) (acc : ℕ × List ℕ)
    (h : ∀ c ∈ l, ¬ acc.1 < c.length) : l.foldl visitFold acc = acc := by
  induction l with
  | nil => rfl
  | cons c rest ih =>
    simp only [List.foldl]
    have hc : visitFold acc c = acc := by
      unfold visitFold
      rw [if_neg (h c (List.mem_cons_self c rest))]
    rw [hc]
    exact ih (fun d hd => h d (List.mem_cons_of_mem _ hd))

theorem foldVisit_first (l1 : List (List ℕ)) (c : List ℕ) (l2 : List (List ℕ))
    (acc : ℕ × List ℕ) (h1 : acc.1 < c.length)
    (h2 : ∀ x ∈ l1, x.length < c.length)
    (h3 : ∀ x ∈ l2, ¬ c.length < x.length) :
    ((l1 ++ c :: l2).foldl visitFold acc).2 = c := by
  induction l1 generalizing acc with
  | nil =>
    simp only [List.nil_append, List.foldl]
    have hv : visitFold acc c = (c.length, c) := by
      unfold visitFold; rw [if_pos h1]
    rw [hv, foldVisit_stable l2 (c.length, c) h3]
  | cons x rest ih =>
    simp only [List.cons_append, List.foldl]
    have hx : (visitFold acc x).1 < c.length := by
      unfold visitFold
      split
      · exact h2 x (List.mem_cons_self x rest)
      · exact h1
    exact ih (visitFold acc x) hx (fun d hd => h2 d (List.mem_cons_of_mem _ hd))

theorem adj_comm (g : List (ℕ × ℕ)) (i j : ℕ) : adj g i j ↔ adj g j i := by
  unfold adj
  rw [min_comm, max_comm]

theorem cliquesList_spec (g : List (ℕ × ℕ)) (n : ℕ) (c : List ℕ) :
    c ∈ cliquesList g n ↔
      c.Sublist (List.range n) ∧ isMaxClique g n c ∧ 2 ≤ c.length := by
  unfold cliquesList
  rw [List.mem_filter, List.mem_sublists]
  simp [and_assoc]


theorem bestSuper_mem (g : List (ℕ × ℕ)) (n : ℕ) (d : List ℕ) :
    bestSuper g n d = d ∨ bestSuper g n d ∈ superCliques g n d := by
  unfold bestSuper
  generalize superCliques g n d = l
  induction l generalizing d with
  | nil => exact Or.inl rfl
  | cons c rest ih =>
    simp only [List.foldl]
    rcases ih (if d.length < c.length then c else d) with h | h
    · rw [h]
      split
      · exact Or.inr (by simp)
      · exact Or.inl rfl
    · exact Or.inr (List.mem_cons_of_mem _ h)

theorem bestSuper_le (g : List (ℕ × ℕ)) (n : ℕ) (d : List ℕ) :
    d.length ≤ (bestSuper g n d).length ∧
      ∀ c ∈ superCliques g n d, c.length ≤ (bestSuper g n d).length := by
  unfold bestSuper
  generalize superCliques g n d = l
  induction l generalizing d with
  | nil => exact ⟨le_refl _, by simp⟩
  | cons c rest ih =>
    simp only [List.foldl]
    have h1 := ih (if d.length < c.length then c else d)
    have hstep : d.length ≤ (if d.length < c.length then c else d).length ∧
        c.length ≤ (if d.length < c.length then c else d).length := by
      split
      · exact ⟨le_of_lt (by assumption), le_refl _⟩
      · exact ⟨le_refl _, le_of_not_lt (by assumption)⟩
    refine ⟨le_trans hstep.1 h1.1, ?_⟩
    intro e he
    rcases List.mem_cons.mp he with h | h
    · subst h; exact le_trans hstep.2 h1.1
    · exact h1.2 e h

theorem mem_superCliques (g : List (ℕ × ℕ)) (n : ℕ) (d c : List ℕ) :
    c ∈ superCliques g n d ↔
      c.Sublist (List.range n) ∧ isClique g c ∧ ∀ x ∈ d, x ∈ c := by
  unfold superCliques
  rw [List.mem_filter, List.mem_sublists]
  simp [and_assoc]


theorem insVert_sublist (n : ℕ) (c : List ℕ) (v : ℕ) :
    (insVert n c v).Sublist (List.range n) := List.filter_sublist _

theorem insVert_mem (n : ℕ) (c : List ℕ) (v : ℕ)
    (hc : c.Sublist (List.range n)) (hv : v ∈ List.range n) (x : ℕ) :
    x ∈ insVert n c v ↔ (x ∈ c ∨ x = v) := by
  unfold insVert
  rw [List.mem_filter]
  constructor
  · intro hx
    have := hx.2
    simpa using this
  · intro hx
    refine ⟨?_, by simpa using hx⟩
    rcases hx with hx | hx
    · exact hc.subset hx
    · subst hx; exact hv

/-- Inserting one adjacent outside vertex into a clique taken inside the
vertex range produces a strictly longer clique inside the range. -/
theorem clique_insert (g : List (ℕ × ℕ)) (n : ℕ) (c : List ℕ) (v : ℕ)
    (hc : c.Sublist (List.range n)) (hcl : isClique g c)
    (hv : v ∈ List.range n) (hvc : v ∉ c) (hadj : ∀ u ∈ c, adj g u v) :
    ∃ e, e.Sublist (List.range n) ∧ isClique g e ∧ (∀ x ∈ c, x ∈ e) ∧
      e.length = c.length + 1 := by
  have hnd : (insVert n c v).Nodup :=
    (insVert_sublist n c v).nodup (List.nodup_range n)
  refine ⟨insVert n c v, insVert_sublist n c v, ?_, ?_, ?_⟩
  · unfold isClique
    apply List.Pairwise.imp_of_mem ?_ hnd
    intro a b ha hb hne
    rcases (insVert_mem n c v hc hv a).mp ha with ha2 | ha2 <;>
      rcases (insVert_mem n c v hc hv b).mp hb with hb2 | hb2
    · exact ((hcl.forall (fun x y h => (adj_comm g x y).mp h)) ha2 hb2 hne)
    · rw [hb2]; exact hadj a ha2
    · rw [ha2]; exact (adj_comm g b v).mp (hadj b hb2)
    · rw [ha2, hb2] at hne; exact absurd rfl hne
  · intro x hx
    exact (insVert_mem n c v hc hv x).mpr (Or.inl hx)
  · have hndc : (v :: c).Nodup := by
      rw [List.nodup_cons]
      exact ⟨hvc, hc.nodup (List.nodup_range n)⟩
    have hperm : List.Perm (insVert n c v) (v :: c) := by
      rw [List.perm_ext_iff_of_nodup hnd hndc]
      intro x
      rw [insVert_mem n c v hc hv x]
      rw [List.mem_cons]
      tauto
    rw [hperm.length_eq]
    rfl

/-- Every clique of at least two vertices inside the range extends to a
maximal clique that the enumeration lists. -/
theorem clique_extends (g : List (ℕ × ℕ)) (n : ℕ) (d : List ℕ)
    (hd : d.Sublist (List.range n)) (hcl : isClique g d) (h2 : 2 ≤ d.length) :
    ∃ c ∈ cliquesList g n, d.length ≤ c.length := by
  have hmem : bestSuper g n d = d ∨ bestSuper g n d ∈ superCliques g n d :=
    bestSuper_mem g n d
  have hb : (bestSuper g n d).Sublist (List.range n) ∧ isClique g (bestSuper g n d) ∧
      ∀ x ∈ d, x ∈ bestSuper g n d := by
    rcases hmem with h | h
    · rw [h]; exact ⟨hd, hcl, fun x hx => hx⟩
    · exact (mem_superCliques g n d _).mp h
  refine ⟨bestSuper g n d, ?_, (bestSuper_le g n d).1⟩
  rw [cliquesList_spec]
  refine ⟨hb.1, ⟨hb.2.1, ?_, ?_⟩, le_trans h2 (bestSuper_le g n d).1⟩
  · intro x hx
    exact List.mem_range.mp (hb.1.subset hx)
  · intro v hv hvb
    by_contra hneg
    push_neg at hneg
    have hadj : ∀ u ∈ bestSuper g n d, adj g u v := hneg
    rcases clique_insert g n (bestSuper g n d) v hb.1 hb.2.1 hv hvb hadj with
      ⟨e, he1, he2, he3, he4⟩
    have hemem : e ∈ superCliques g n d := by
      rw [mem_superCliques]
      exact ⟨he1, he2, fun x hx => he3 x (hb.2.2 x hx)⟩
    have := (bestSuper_le g n d).2 e hemem
    omega

/-- With no edges at all the enumeration is empty. -/
theorem cliquesList_empty (n : ℕ) : cliquesList [] n = [] := by
  unfold cliquesList
  rw [List.filter_eq_nil_iff]
  intro c hc
  simp only [Bool.and_eq_true, decide_eq_true_eq, not_and]
  intro hmax h2
  match c, h2, hmax with
  | x :: y :: rest, _, hmax =>
    have := hmax.1
    rw [isClique, List.pairwise_cons] at this
    have := this.1 y (List.mem_cons_self y rest)
    exact absurd this (by simp [adj])


/-- C3 counterexample: on a single input triangle the queue drains with
an edgeless Overlap Graph; the finalize step then chooses the empty
clique although the singleton [0] is a clique of the graph — a strictly
larger clique than the chosen one exists, so the claim as stated fails. -/
theorem C3_counterexample :
    oneRun.map (fun st =>
        (decide (isClique st.graph [0]), st.tris.length,
          (chooseClique st.graph st.tris.length).length)) =
      some (true, 1, 0) := by
  decide

/-- C3 as amended: the clique chosen by the finalize fold is a clique of
the Overlap Graph; no clique with at least two vertices is strictly
larger; on an edgeless graph the chosen clique is empty (the enumeration
never visits singletons); and whenever the enumeration has a first
maximum-size element, that first-encountered clique is the one kept. -/
theorem C3_finalize_max_clique (g : List (ℕ × ℕ)) (n : ℕ) :
    isClique g (chooseClique g n) ∧
    (∀ d, d.Sublist (List.range n) → isClique g d → 2 ≤ d.length →
      d.length ≤ (chooseClique g n).length) ∧
    (g = [] → chooseClique g n = []) ∧
    (∀ l1 c l2, cliquesList g n = l1 ++ c :: l2 →
      (∀ x ∈ l1, x.length < c.length) →
      (∀ x ∈ l2, x.length ≤ c.length) →
      chooseClique g n = c) := by
  refine ⟨?_, ?_, ?_, ?_⟩
  · rcases foldVisit_mem (cliquesList g n) (0, []) with h | h
    · unfold chooseClique
      rw [h]
      exact List.Pairwise.nil
    · have := ((cliquesList_spec g n _).mp h).2.1.1
      exact this
  · intro d hsub hcl h2
    rcases clique_extends g n d hsub hcl h2 with ⟨c, hc, hlen⟩
    have hle := (foldVisit_le (cliquesList g n) (0, [])).2 c hc
    have hlen2 := foldVisit_len (cliquesList g n) (0, []) rfl
    unfold chooseClique
    rw [← hlen2]
    exact le_trans hlen hle
  · intro hg
    unfold chooseClique
    rw [hg, cliquesList_empty]
    rfl
  · intro l1 c l2 heq hlt hle
    have hcmem : c ∈ cliquesList g n := by
      rw [heq]
      exact List.mem_append_right _ (List.mem_cons_self c l2)
    have h2 : 2 ≤ c.length := ((cliquesList_spec g n c).mp hcmem).2.2
    unfold chooseClique
    rw [heq]
    exact foldVisit_first l1 c l2 (0, []) (by omega) hlt
      (fun x hx => not_lt.mpr (hle x hx))

theorem C3_finalize_max_clique_witness :
    isClique [(0, 1), (2, 3)] (chooseClique [(0, 1), (2, 3)] 4) ∧
      2 ≤ (chooseClique [(0, 1), (2, 3)] 4).length := by
  have h := C3_finalize_max_clique [(0, 1), (2, 3)] 4
  exact ⟨h.1, h.2.1 [2, 3] (by decide) (by decide) (by decide)⟩

/-- C9: when the Overlap Graph has no edges at finalize time, the chosen
clique is the empty set — not a single-vertex clique — and finalize still
appends exactly one solution, the intersection of an empty triangle
collection, whose region is empty. -/
theorem C9_empty_graph_empty_clique (st : State) (hg : st.graph = []) :
    chooseClique st.graph st.tris.length = [] ∧
    (finalize st).sols = st.sols ++ [[]] ∧
    solSetR [] = ∅ := by
  have h1 : chooseClique st.graph st.tris.length = [] := by
    rw [hg]
    unfold chooseClique
    rw [cliquesList_empty]
    rfl
  refine ⟨h1, ?_, rfl⟩
  unfold finalize
  rw [h1]
  rfl

theorem C9_empty_graph_empty_clique_witness :
    wSt.graph = [] ∧ chooseClique wSt.graph wSt.tris.length = [] ∧
      (finalize wSt).sols = wSt.sols ++ [[]] := by
  have h := C9_empty_graph_empty_clique wSt rfl
  exact ⟨rfl, h.1, h.2.1⟩

/-! ### Solution regions -/


/-- Point membership in a triangle depends only on its geometry. -/
theorem inTri_geom (t u : Triangle) (h : triGeom t = triGeom u) (p : Pt) :
    inTri t p ↔ inTri u p := by
  obtain ⟨a, b, c, i⟩ := t
  obtain ⟨d, e, f, j⟩ := u
  simp only [triGeom, Prod.mk.injEq] at h
  obtain ⟨h1, h2, h3⟩ := h
  subst h1; subst h2; subst h3
  rfl

theorem foldAnd_iff (p : Pt) (ts : List Triangle) (q : Prop) :
    List.foldl (fun acc u => acc ∧ inTri u p) q ts ↔ (q ∧ ∀ u ∈ ts, inTri u p) := by
  induction ts generalizing q with
  | nil => simp
  | cons u us ih =>
    simp only [List.foldl]
    rw [ih]
    constructor
    · rintro ⟨⟨hq, hu⟩, hus⟩
      refine ⟨hq, ?_⟩
      intro x hx
      rcases List.mem_cons.mp hx with h | h
      · subst h; exact hu
      · exact hus x h
    · rintro ⟨hq, hall⟩
      exact ⟨⟨hq, hall u (List.mem_cons_self u us)⟩,
        fun x hx => hall x (List.mem_cons_of_mem _ hx)⟩

/-- The rational region membership of a solution is the conjunction of
membership in every clique triangle, for a nonempty clique. -/
theorem solMem_iff (sol : List Triangle) (p : Pt) :
    solMem sol p ↔ (sol ≠ [] ∧ ∀ t ∈ sol, inTri t p) := by
  match sol with
  | [] => simp [solMem]
  | t :: ts =>
    show List.foldl (fun acc u => acc ∧ inTri u p) (inTri t p) ts ↔ _
    rw [foldAnd_iff]
    constructor
    · rintro ⟨ht, hts⟩
      refine ⟨by simp, ?_⟩
      intro u hu
      rcases List.mem_cons.mp hu with h | h
      · subst h; exact ht
      · exact hts u h
    · rintro ⟨-, hall⟩
      exact ⟨hall t (List.mem_cons_self t ts),
        fun u hu => hall u (List.mem_cons_of_mem _ hu)⟩

/-- C6 counterexample: two runs of the engine on the same set of four
triangles in two input orders.  Both runs build the same abstract graph
(two disjoint 2-cliques) but first-encountered tie-breaking picks the
clique of the two triangles listed first, so the two runs output
geometrically different solution regions: the point (-2,6) belongs to
the solution of the first run and not to that of the second. -/
theorem C6_counterexample :
    [triA, triB, farC, farD].Perm [farC, farD, triA, triB] ∧
    pairRun1.map (fun st => st.sols.map (fun s => decide (solMem s ⟨-2, 6⟩))) =
      some [true] ∧
    pairRun2.map (fun st => st.sols.map (fun s => decide (solMem s ⟨-2, 6⟩))) =
      some [false] := by
  refine ⟨by decide, by decide, by decide⟩

/-- C6 as amended: the solution region is a function of the chosen
clique triangles alone — whenever two runs choose cliques made of the
same triangles as geometric objects (in any order, under any ids), the
two solution regions are pointwise equal.  Permutation invariance of the
full run fails only through the implementation-defined tie-break among
several maximum cliques (spec section 9). -/
theorem C6_region_of_clique (sol1 sol2 : List Triangle)
    (h : (sol1.map triGeom).Perm (sol2.map triGeom)) (p : Pt) :
    solMem sol1 p ↔ solMem sol2 p := by
  rw [solMem_iff, solMem_iff]
  have hne : sol1 ≠ [] ↔ sol2 ≠ [] := by
    constructor <;> intro hx hy <;> subst hy <;> simp at h <;> simp [h] at hx
  have hmem : (∀ t ∈ sol1, inTri t p) ↔ ∀ t ∈ sol2, inTri t p := by
    constructor
    · intro hall t ht
      have : triGeom t ∈ sol1.map triGeom :=
        h.symm.subset (List.mem_map_of_mem _ ht)
      rcases List.mem_map.mp this with ⟨u, hu, hg⟩
      exact (inTri_geom u t hg p).mp (hall u hu)
    · intro hall t ht
      have : triGeom t ∈ sol2.map triGeom :=
        h.subset (List.mem_map_of_mem _ ht)
      rcases List.mem_map.mp this with ⟨u, hu, hg⟩
      exact (inTri_geom u t hg p).mp (hall u hu)
  rw [hne, hmem]


theorem C6_region_of_clique_witness :
    ([wT1, wT2].map triGeom).Perm ([wT2b, wT1b].map triGeom) ∧
      (solMem [wT1, wT2] ⟨-2, 6⟩ ↔ solMem [wT2b, wT1b] ⟨-2, 6⟩) :=
  ⟨by decide, C6_region_of_clique [wT1, wT2] [wT2b, wT1b] (by decide) ⟨-2, 6⟩⟩

/-- The fold of pairwise intersection over the remaining triangles is
the set of points lying in the accumulator and in all of them. -/
theorem foldInter_eq (ts : List Triangle) (acc : Set (ℝ × ℝ)) :
    List.foldl (fun a u => a ∩ triSetR u) acc ts =
      acc ∩ { p | ∀ u ∈ ts, p ∈ triSetR u } := by
  induction ts generalizing acc with
  | nil => simp
  | cons u us ih =>
    simp only [List.foldl]
    rw [ih]
    ext p
    simp only [Set.mem_inter_iff, Set.mem_setOf_eq, List.mem_cons]
    constructor
    · rintro ⟨⟨hp, hu⟩, hus⟩
      refine ⟨hp, ?_⟩
      rintro x (rfl | hx)
      · exact hu
      · exact hus x hx
    · rintro ⟨hp, hall⟩
      exact ⟨⟨hp, hall u (Or.inl rfl)⟩, fun x hx => hall x (Or.inr hx)⟩

/-- The real region of a nonempty solution list is the intersection of
all its triangles. -/
theorem solSetR_eq (t : Triangle) (ts : List Triangle) :
    solSetR (t :: ts) = { p | ∀ u ∈ t :: ts, p ∈ triSetR u } := by
  show List.foldl (fun acc u => acc ∩ triSetR u) (triSetR t) ts = _
  rw [foldInter_eq]
  ext p
  simp only [Set.mem_inter_iff, Set.mem_setOf_eq, List.mem_cons]
  constructor
  · rintro ⟨hp, hall⟩ x (rfl | hx)
    · exact hp
    · exact hall x hx
  · intro hall
    exact ⟨hall t (Or.inl rfl), fun x hx => hall x (Or.inr hx)⟩

/-- C7 counterexample: the run on one triangle appends the solution of
the empty clique; its region is empty although the empty clique's
triangles vacuously share a common point, so the stated equivalence
fails for that appended solution. -/
theorem C7_counterexample :
    oneRun.map (fun st => st.sols) = some [[]] ∧
    ¬ (Set.Nonempty (solSetR []) ↔
        ∃ p : ℝ × ℝ, ∀ t ∈ ([] : List Triangle), p ∈ triSetR t) := by
  constructor
  · decide
  · intro h
    have h2 : Set.Nonempty (solSetR ([] : List Triangle)) :=
      h.mpr ⟨(0, 0), by simp⟩
    simp only [solSetR] at h2
    exact Set.not_nonempty_empty h2

/-- C7 as amended: for a nonempty chosen clique, the appended solution
region is nonempty exactly when the clique triangles share a common
point, and its area is at most the area of every member triangle —
hence at most the area of the smallest. -/
theorem C7_region_nonempty_area (t : Triangle) (ts : List Triangle) :
    (Set.Nonempty (solSetR (t :: ts)) ↔
      ∃ p : ℝ × ℝ, ∀ u ∈ t :: ts, p ∈ triSetR u) ∧
    ∀ u ∈ t :: ts,
      MeasureTheory.volume (solSetR (t :: ts)) ≤
        MeasureTheory.volume (triSetR u) := by
  constructor
  · rw [solSetR_eq]
    exact Iff.rfl
  · intro u hu
    apply MeasureTheory.measure_mono
    rw [solSetR_eq]
    intro p hp
    exact hp u hu

theorem C7_region_nonempty_area_witness :
    MeasureTheory.volume (solSetR [wT1, wT2]) ≤
      MeasureTheory.volume (triSetR wT2) := by
  exact (C7_region_nonempty_area wT1 [wT2]).2 wT2 (by simp)

/-- C1 (code bug): on the blocked run the two crossing points of the
pair (triA, triB) are both detected and aggregated in the Intersection
Index, the classification predicate re-verifies the contributing pair
as a proper crossing, and brute force finds a proper crossing among the
3 x 3 edge pairs — yet the Overlap Graph stays empty, because the
comparator-based re-verification of handle_intersection (maxtri.cc line
281) compares the segments at a sweep position whose height equals the
crossing height, where every segment through the crossing point ties.
Without the blockers the same pair is marked adjacent. -/
theorem C1_blocked_run_misses_adjacency :
    blockedRun.map (fun st => (st.graph, st.ix.map Prod.fst)) =
      some ([], [⟨0, 4⟩, ⟨0, 8⟩]) ∧
    (pipeline [triA, triB]).map State.graph = some [(0, 1)] ∧
    (segSegInt wT1.e1 wT2.e0).1 = ICode.proper ∧
    (segSegInt wT1.e1 wT2.e0).2 = ⟨0, 4⟩ ∧
    bruteCross wT1 wT2 := by
  refine ⟨by decide, by decide, by decide, by decide, by decide⟩


theorem addSeg_mem (l : List Seg) (s x : Seg) :
    x ∈ addSeg l s ↔ x ∈ l ∨ x = s := by
  unfold addSeg
  split
  · constructor
    · exact Or.inl
    · rintro (h | h)
      · exact h
      · subst h; assumption
  · simp

theorem ixAddPair_entries (ix : List (Pt × List Seg)) (p : Pt) (s t : Seg)
    (P : Seg → Prop)
    (hix : ∀ e ∈ ix, ∀ x ∈ e.2, P x) (hs : P s) (ht : P t) :
    ∀ e ∈ ixAddPair ix p s t, ∀ x ∈ e.2, P x := by
  induction ix with
  | nil => simp [ixAddPair]
  | cons hd rest ih =>
    obtain ⟨q, ev⟩ := hd
    unfold ixAddPair
    split
    · intro e he x hx
      rcases List.mem_cons.mp he with h | h
      · subst h
        simp only at hx
        rcases (addSeg_mem _ _ _).mp hx with h2 | h2
        · rcases (addSeg_mem _ _ _).mp h2 with h3 | h3
          · exact hix (q, ev) (List.mem_cons_self _ _) x h3
          · subst h3; exact hs
        · subst h2; exact ht
      · exact hix e (List.mem_cons_of_mem _ h) x hx
    · intro e he x hx
      rcases List.mem_cons.mp he with h | h
      · subst h; exact hix (q, ev) (List.mem_cons_self _ _) x hx
      · exact ih (fun e2 he2 => hix e2 (List.mem_cons_of_mem _ he2)) e h x hx

theorem ixFind_entry_mem (ix : List (Pt × List Seg)) (p : Pt) (segs : List Seg)
    (h : ixFind ix p = some segs) : (p, segs) ∈ ix := by
  induction ix with
  | nil => exact Option.noConfusion h
  | cons hd rest ih =>
    obtain ⟨q, ev⟩ := hd
    unfold ixFind at h
    split at h
    · rename_i hq
      simp only [Option.some.injEq] at h
      subst h; subst hq
      exact List.mem_cons_self _ _
    · exact List.mem_cons_of_mem _ (ih h)

theorem popMin_none_iff (q : List Ev) : popMin q = Option.none ↔ q = [] := by
  cases q with
  | nil => simp [popMin]
  | cons e es =>
    simp only [popMin]
    constructor
    · intro h
      rcases hes : popMin es with _ | mr
      · rw [hes] at h; exact Option.noConfusion h
      · rw [hes] at h
        obtain ⟨m, r⟩ := mr
        simp only at h
        split at h <;> exact Option.noConfusion h
    · intro h; exact List.noConfusion h

theorem popMin_spec (q : List Ev) (e : Ev) (r : List Ev)
    (h : popMin q = some (e, r)) :
    e ∈ q ∧ q.length = r.length + 1 ∧ ∀ x ∈ r, x ∈ q := by
  induction q generalizing e r with
  | nil => exact Option.noConfusion h
  | cons a as ih =>
    unfold popMin at h
    rcases has : popMin as with _ | mr
    · rw [has] at h
      simp only [Option.some.injEq, Prod.mk.injEq] at h
      obtain ⟨h1, h2⟩ := h
      subst h1; subst h2
      have : as = [] := (popMin_none_iff as).mp has
      subst this
      exact ⟨List.mem_cons_self _ _, rfl, by simp⟩
    · rw [has] at h
      obtain ⟨m, r2⟩ := mr
      simp only at h
      split at h
      · simp only [Option.some.injEq, Prod.mk.injEq] at h
        obtain ⟨h1, h2⟩ := h
        subst h1; subst h2
        rcases ih m r2 has with ⟨hm, hl, hsub⟩
        refine ⟨List.mem_cons_of_mem _ hm, by simp [hl], ?_⟩
        intro x hx
        rcases List.mem_cons.mp hx with h | h
        · subst h; exact List.mem_cons_self _ _
        · exact List.mem_cons_of_mem _ (hsub x h)
      · simp only [Option.some.injEq, Prod.mk.injEq] at h
        obtain ⟨h1, h2⟩ := h
        subst h1; subst h2
        exact ⟨List.mem_cons_self _ _, rfl, fun x hx => List.mem_cons_of_mem _ hx⟩

theorem leftRun_subset (cy : ℚ) (l : List Seg) (c : Seg) :
    ∀ x ∈ leftRun cy l c, x ∈ l := by
  unfold leftRun
  split
  · simp
  · intro x hx
    rw [List.mem_reverse] at hx
    exact List.mem_of_mem_filter (List.mem_of_mem_filter hx)

theorem rightRun_subset (cy : ℚ) (l : List Seg) (c : Seg) :
    ∀ x ∈ rightRun cy l c, x ∈ l := by
  unfold rightRun
  split
  · simp
  · intro x hx
    exact List.mem_of_mem_filter (List.mem_of_mem_filter hx)

theorem mem_insertUB (cy : ℚ) (s : Seg) (l : List Seg) (x : Seg) :
    x ∈ insertUB cy s l ↔ x = s ∨ x ∈ l := by
  induction l with
  | nil => simp [insertUB]
  | cons y ys ih =>
    unfold insertUB
    split
    · simp
    · simp only [List.mem_cons, ih]
      tauto

theorem mem_foldl_insertUB (cy : ℚ) (segs : List Seg) (base : List Seg) (x : Seg) :
    x ∈ segs.foldl (fun l s => insertUB cy s l) base ↔ x ∈ base ∨ x ∈ segs := by
  induction segs generalizing base with
  | nil => simp
  | cons s rest ih =>
    simp only [List.foldl, ih, mem_insertUB, List.mem_cons]
    tauto

theorem edges_mem_allEdges (t : Triangle) (tris : List Triangle) (ht : t ∈ tris) :
    t.e0 ∈ allEdges tris ∧ t.e1 ∈ allEdges tris ∧ t.e2 ∈ allEdges tris := by
  have h : ∀ x ∈ t.edges, x ∈ allEdges tris := by
    intro x hx
    unfold allEdges
    rw [List.mem_flatten]
    exact ⟨t.edges, List.mem_map_of_mem _ ht, hx⟩
  exact ⟨h t.e0 (by simp [Triangle.edges]), h t.e1 (by simp [Triangle.edges]),
    h t.e2 (by simp [Triangle.edges])⟩

theorem proper_mem_candPts (tris : List Triangle) (c b : Seg)
    (hc : c ∈ allEdges tris) (hb : b ∈ allEdges tris)
    (hp : (segSegInt c b).1 = ICode.proper) :
    (segSegInt c b).2 ∈ candPts tris := by
  unfold candPts
  rw [List.mem_dedup, List.mem_filterMap]
  refine ⟨(c, b), ?_, ?_⟩
  · rw [List.mem_flatten]
    exact ⟨(allEdges tris).map (fun f => (c, f)), List.mem_map_of_mem _ hc,
      List.mem_map_of_mem _ hb⟩
  · simp [hp]

theorem candPts_nodup (tris : List Triangle) : (candPts tris).Nodup :=
  List.nodup_dedup _

/-- Recording one fresh candidate point shrinks the unrecorded candidate
count by exactly one. -/
theorem filter_record_length (l : List Pt) (keys : List Pt) (pt : Pt)
    (hnd : l.Nodup) (hmem : pt ∈ l) (hpt : pt ∉ keys) :
    (l.filter (fun p => decide (p ∉ keys ++ [pt]))).length + 1 =
      (l.filter (fun p => decide (p ∉ keys))).length := by
  induction l with
  | nil => exact absurd hmem (List.not_mem_nil pt)
  | cons x xs ih =>
    rw [List.nodup_cons] at hnd
    rw [List.filter_cons, List.filter_cons]
    simp only [decide_eq_true_eq]
    by_cases hx : x = pt
    · subst hx
      rw [if_neg (by simp), if_pos hpt]
      have hcong : xs.filter (fun p => decide (p ∉ keys ++ [x])) =
          xs.filter (fun p => decide (p ∉ keys)) := by
        apply List.filter_congr
        intro p hp
        have hne : p ≠ x := fun h => hnd.1 (h ▸ hp)
        simp only [decide_eq_decide, List.mem_append, List.mem_singleton]
        tauto
      rw [hcong]
      simp
    · have hmem2 : pt ∈ xs := by
        rcases List.mem_cons.mp hmem with h | h
        · exact absurd h.symm hx
        · exact h
      by_cases hk : x ∈ keys
      · rw [if_neg (by simp [hk]), if_neg (by simp [hk])]
        exact ih hnd.2 hmem2
      · rw [if_pos (by simp [hk, hx]), if_pos hk]
        simp only [List.length_cons]
        have := ih hnd.2 hmem2
        omega

/-- One detection step preserves the invariant, the triangles and the
measure: enqueuing a fresh crossing pays for itself by recording the
point in the Intersection Index. -/
theorem detectStep_D (c : Seg) (st : State) (b : Seg)
    (hc : c ∈ allEdges st.tris) (hb : b ∈ allEdges st.tris) (hI : Inv st) :
    Inv (detectStep c st b) ∧ (detectStep c st b).tris = st.tris ∧
      mu (detectStep c st b) = mu st := by
  unfold detectStep
  split
  · rename_i hcond
    split
    · rename_i e hfind
      refine ⟨⟨hI.1, ?_, hI.2.2⟩, rfl, ?_⟩
      · exact ixAddPair_entries st.ix _ c b _ hI.2.1 hc hb
      · unfold mu remCands ixKeys
        simp only
        rw [ixAddPair_keys]
    · rename_i hfind
      have hpt := proper_mem_candPts st.tris c b hc hb hcond.1
      have hnot := (ixFind_none_iff st.ix (segSegInt c b).2).mp hfind
      refine ⟨⟨hI.1, ?_, ?_⟩, rfl, ?_⟩
      · intro e he s hs
        rcases List.mem_append.mp he with h | h
        · exact hI.2.1 e h s hs
        · simp only [List.mem_singleton] at h
          subst h
          simp only at hs
          rcases (addSeg_mem _ _ _).mp hs with h2 | h2
          · rcases (addSeg_mem _ _ _).mp h2 with h3 | h3
            · exact absurd h3 (List.not_mem_nil s)
            · subst h3; exact hc
          · subst h2; exact hb
      · intro t r htr
        rcases List.mem_append.mp htr with h | h
        · exact hI.2.2 t r h
        · simp only [List.mem_singleton] at h
          exact Ev.noConfusion h
      · unfold mu remCands ixKeys
        simp only [List.length_append, List.map_append, List.map_cons,
          List.map_nil, List.length_cons, List.length_nil]
        have hcnt := filter_record_length (candPts st.tris) (st.ix.map Prod.fst)
          (segSegInt c b).2 (candPts_nodup st.tris) hpt hnot
        unfold ixKeys at hcnt
        omega
  · exact ⟨hI, rfl, rfl⟩

theorem detectRange_D (c : Seg) (cands : List Seg) (st : State)
    (hc : c ∈ allEdges st.tris) (hcands : ∀ b ∈ cands, b ∈ allEdges st.tris)
    (hI : Inv st) :
    Inv (detectRange c cands st) ∧ (detectRange c cands st).tris = st.tris ∧
      mu (detectRange c cands st) = mu st := by
  induction cands generalizing st with
  | nil => exact ⟨hI, rfl, rfl⟩
  | cons b rest ih =>
    have h1 := detectStep_D c st b hc (hcands b (List.mem_cons_self b rest)) hI
    have h2 := ih (detectStep c st b) (by rw [h1.2.1]; exact hc)
      (fun x hx => by rw [h1.2.1]; exact hcands x (List.mem_cons_of_mem _ hx)) h1.1
    unfold detectRange at h2 ⊢
    simp only [List.foldl]
    exact ⟨h2.1, h2.2.1.trans h1.2.1, h2.2.2.trans h1.2.2⟩

theorem checkIntersections_D (st : State) (c : Seg)
    (hc : c ∈ allEdges st.tris) (hI : Inv st) :
    Inv (checkIntersections st c) ∧ (checkIntersections st c).tris = st.tris ∧
      mu (checkIntersections st c) = mu st := by
  unfold checkIntersections
  have h1 := detectRange_D c (leftRun st.sweep.y st.status c) st hc
    (fun x hx => hI.1 x (leftRun_subset _ _ _ x hx)) hI
  have hfr := detectRange_frame c (leftRun st.sweep.y st.status c) st
  have h2 := detectRange_D c
    (rightRun st.sweep.y (detectRange c (leftRun st.sweep.y st.status c) st).status c)
    (detectRange c (leftRun st.sweep.y st.status c) st)
    (by rw [h1.2.1]; exact hc)
    (fun x hx => by
      rw [h1.2.1]
      apply hI.1 x
      have := rightRun_subset st.sweep.y
        (detectRange c (leftRun st.sweep.y st.status c) st).status c x hx
      rwa [hfr.1] at this)
    h1.1
  exact ⟨h2.1, h2.2.1.trans h1.2.1, h2.2.2.trans h1.2.2⟩

theorem optCheck_D (st : State) (o : Option Seg)
    (ho : ∀ x, o = some x → x ∈ allEdges st.tris) (hI : Inv st) :
    Inv (optCheck st o) ∧ (optCheck st o).tris = st.tris ∧
      mu (optCheck st o) = mu st := by
  cases o with
  | none => exact ⟨hI, rfl, rfl⟩
  | some x => exact checkIntersections_D st x (ho x rfl) hI

theorem insertEdge_D (st : State) (e : Seg)
    (he : e ∈ allEdges st.tris) (hI : Inv st) :
    Inv (insertEdge st e) ∧ (insertEdge st e).tris = st.tris ∧
      mu (insertEdge st e) = mu st := by
  unfold insertEdge
  have hI1 : Inv { st with status := insertUB st.sweep.y e st.status } := by
    refine ⟨?_, hI.2.1, hI.2.2⟩
    intro s hs
    rcases (mem_insertUB _ _ _ _).mp hs with h | h
    · subst h; exact he
    · exact hI.1 s h
  exact checkIntersections_D { st with status := insertUB st.sweep.y e st.status }
    e he hI1

theorem removeEdge_D (st : State) (e : Seg) (st2 : State)
    (hr : removeEdge st e = some st2) (hI : Inv st) :
    Inv st2 ∧ st2.tris = st.tris ∧ mu st2 = mu st := by
  unfold removeEdge at hr
  split at hr
  · exact Option.noConfusion hr
  · rename_i k hk
    have hIe : Inv { st with status := st.status.eraseIdx k } := by
      refine ⟨?_, hI.2.1, hI.2.2⟩
      intro s hs
      exact hI.1 s ((List.eraseIdx_sublist st.status k).subset hs)
    split at hr <;> simp only [Option.some.injEq] at hr <;> subst hr
    · apply optCheck_D
      · intro x hx
        apply hI.1 x
        exact (List.eraseIdx_sublist st.status k).subset (List.get?_mem hx)
      · exact hIe
    · have h1 := optCheck_D { st with status := st.status.eraseIdx k }
        ((st.status.eraseIdx k).get? (k - 1))
        (fun x hx => hI.1 x ((List.eraseIdx_sublist st.status k).subset
          (List.get?_mem hx))) hIe
      have h2 := optCheck_D _ ((st.status.eraseIdx k).get? k)
        (fun x hx => by
          rw [h1.2.1]
          exact hI.1 x ((List.eraseIdx_sublist st.status k).subset
            (List.get?_mem hx))) h1.1
      exact ⟨h2.1, h2.2.1.trans h1.2.1, h2.2.2.trans h1.2.2⟩

theorem eraseSegs_parts (st : State) (segs : List Seg) (st2 : State)
    (hr : eraseSegs st segs = some st2) :
    st2.ix = st.ix ∧ st2.queue = st.queue ∧ st2.tris = st.tris ∧
      st2.sweep = st.sweep ∧ st2.sols = st.sols ∧ st2.graph = st.graph ∧
      ∀ x ∈ st2.status, x ∈ st.status := by
  induction segs generalizing st with
  | nil =>
    unfold eraseSegs at hr
    simp only [Option.some.injEq] at hr
    subst hr
    exact ⟨rfl, rfl, rfl, rfl, rfl, rfl, fun x hx => hx⟩
  | cons s rest ih =>
    unfold eraseSegs at hr
    split at hr
    · exact Option.noConfusion hr
    · rename_i k hk
      have h := ih { st with status := st.status.eraseIdx k } hr
      exact ⟨h.1, h.2.1, h.2.2.1, h.2.2.2.1, h.2.2.2.2.1, h.2.2.2.2.2.1,
        fun x hx => (List.eraseIdx_sublist st.status k).subset
          (h.2.2.2.2.2.2 x hx)⟩

theorem foldCheck_D (segs : List Seg) (st : State)
    (hsegs : ∀ s ∈ segs, s ∈ allEdges st.tris) (hI : Inv st) :
    Inv (segs.foldl checkIntersections st) ∧
      (segs.foldl checkIntersections st).tris = st.tris ∧
      mu (segs.foldl checkIntersections st) = mu st := by
  induction segs generalizing st with
  | nil => exact ⟨hI, rfl, rfl⟩
  | cons s rest ih =>
    simp only [List.foldl]
    have h1 := checkIntersections_D st s (hsegs s (List.mem_cons_self s rest)) hI
    have h2 := ih (checkIntersections st s)
      (fun x hx => by rw [h1.2.1]; exact hsegs x (List.mem_cons_of_mem _ hx)) h1.1
    exact ⟨h2.1, h2.2.1.trans h1.2.1, h2.2.2.trans h1.2.2⟩

theorem handleIntersection_D (st : State) (p : Pt) (st2 : State)
    (hr : handleIntersection st p = some st2) (hI : Inv st) :
    Inv st2 ∧ st2.tris = st.tris ∧ mu st2 = mu st := by
  unfold handleIntersection at hr
  split at hr
  · exact Option.noConfusion hr
  · split at hr
    · exact Option.noConfusion hr
    · rename_i oty segs hfind oty2 stE herase
      simp only [Option.some.injEq] at hr
      subst hr
      have hsegs : ∀ s ∈ segs, s ∈ allEdges st.tris :=
        hI.2.1 (p, segs) (ixFind_entry_mem st.ix p segs hfind)
      have hparts := eraseSegs_parts _ segs stE herase
      have htris : stE.tris = st.tris := hparts.2.2.1
      have hIm : Inv { stE with
          sweep := p
          status := segs.foldl (fun l s => insertUB p.y s l) stE.status } := by
        refine ⟨?_, ?_, ?_⟩
        · intro s hs
          simp only at hs
          rw [htris]
          rcases (mem_foldl_insertUB p.y segs stE.status s).mp hs with h | h
          · exact hI.1 s (hparts.2.2.2.2.2.2 s h)
          · exact hsegs s h
        · intro e he s hs
          simp only at he
          rw [htris]
          rw [hparts.1] at he
          exact hI.2.1 e he s hs
        · intro t r htr
          simp only at htr
          rw [htris]
          rw [hparts.2.1] at htr
          exact hI.2.2 t r htr
      have hmuM : mu { stE with
          sweep := p
          status := segs.foldl (fun l s => insertUB p.y s l) stE.status } = mu st := by
        unfold mu remCands ixKeys
        simp only
        rw [hparts.1, hparts.2.1, htris]
      have hsegs2 : ∀ s ∈ segs, s ∈ allEdges ({ stE with
          sweep := p
          status := segs.foldl (fun l s => insertUB p.y s l) stE.status } : State).tris := by
        intro s hs
        simp only
        rw [htris]
        exact hsegs s hs
      have hfold := foldCheck_D segs _ hsegs2 hIm
      refine ⟨hfold.1, ?_, ?_⟩
      · rw [hfold.2.1]
        simp only
        exact htris
      · rw [hfold.2.2]
        exact hmuM

theorem handleTripoint_D (st : State) (t : Triangle) (r : ℕ) (st2 : State)
    (hr : handleTripoint st t r = some st2) (ht : t ∈ st.tris) (hI : Inv st) :
    Inv st2 ∧ st2.tris = st.tris ∧ mu st2 = mu st := by
  have hedges := edges_mem_allEdges t st.tris ht
  unfold handleTripoint at hr
  match r, hr with
  | 0, hr =>
    simp only [Option.some.injEq] at hr
    subst hr
    have h1 := insertEdge_D { st with sweep := t.v0 } t.e0 hedges.1 hI
    have h2 := insertEdge_D (insertEdge { st with sweep := t.v0 } t.e0) t.e1
      (by rw [h1.2.1]; exact hedges.2.1) h1.1
    exact ⟨h2.1, h2.2.1.trans h1.2.1, h2.2.2.trans h1.2.2⟩
  | 1, hr =>
    have hr2 : (removeEdge { st with sweep := t.v1 } t.e0).map
        (fun s => insertEdge s t.e2) = some st2 := hr
    rcases Option.map_eq_some'.mp hr2 with ⟨stR, hrm, hins⟩
    subst hins
    have h1 := removeEdge_D { st with sweep := t.v1 } t.e0 stR hrm hI
    have h2 := insertEdge_D stR t.e2 (by rw [h1.2.1]; exact hedges.2.2) h1.1
    exact ⟨h2.1, h2.2.1.trans h1.2.1, h2.2.2.trans h1.2.2⟩
  | (n + 2), hr =>
    have hr2 : (removeEdge { st with sweep := t.v2 } t.e1).bind
        (fun s => removeEdge s t.e2) = some st2 := hr
    rcases Option.bind_eq_some.mp hr2 with ⟨stR, hrm, hrm2⟩
    have h1 := removeEdge_D { st with sweep := t.v2 } t.e1 stR hrm hI
    have h2 := removeEdge_D stR t.e2 st2 hrm2 h1.1
    exact ⟨h2.1, h2.2.1.trans h1.2.1, h2.2.2.trans h1.2.2⟩

theorem handleEvent_D (st : State) (ev : Ev) (st2 : State)
    (hr : handleEvent st ev = some st2) (hI : Inv st)
    (hEv : ∀ t r, ev = Ev.vert t r → t ∈ st.tris) :
    Inv st2 ∧ st2.tris = st.tris ∧ mu st2 = mu st := by
  cases ev with
  | vert t r => exact handleTripoint_D st t r st2 hr (hEv t r rfl) hI
  | isect p => exact handleIntersection_D st p st2 hr hI

/-- With fuel exceeding the measure the loop always reaches a drained or
faulted state, never fuel exhaustion. -/
theorem loop_no_fuelOut (n : ℕ) : ∀ st : State, Inv st → mu st < n →
    loop n st ≠ RunRes.fuelOut := by
  induction n with
  | zero =>
    intro st _ h
    exact absurd h (Nat.not_lt_zero _)
  | succ m ih =>
    intro st hI hmu
    unfold loop
    split
    · intro h; exact RunRes.noConfusion h
    · split
      · intro h; exact RunRes.noConfusion h
      · rename_i opt ev rest hpop oState st2 hh
        have hspec := popMin_spec st.queue ev rest hpop
        have hIpop : Inv { st with queue := rest } :=
          ⟨hI.1, hI.2.1, fun t r htr => hI.2.2 t r (hspec.2.2 _ htr)⟩
        have hevt : ∀ t r, ev = Ev.vert t r →
            t ∈ ({ st with queue := rest } : State).tris := by
          intro t r hev
          subst hev
          exact hI.2.2 t r hspec.1
        have hD := handleEvent_D { st with queue := rest } ev st2 hh hIpop hevt
        apply ih st2 hD.1
        have hq : st.queue.length = rest.length + 1 := hspec.2.1
        have hmu2 : mu st2 = rest.length + remCands st := by
          rw [hD.2.2]
          rfl
        unfold mu at hmu
        omega

/-- Length of a flattened map of triples. -/
theorem flatten_three {α β : Type} (f g h : α → β) (l : List α) :
    ((l.map (fun t => [f t, g t, h t])).flatten).length = 3 * l.length := by
  induction l with
  | nil => rfl
  | cons x xs ih =>
    simp only [List.map_cons, List.flatten_cons, List.length_append, ih,
      List.length_cons, List.length_nil]
    ring

theorem mkTris_length (raw : List (Pt × Pt × Pt)) :
    (mkTris raw).length = raw.length := by
  simp [mkTris]

theorem Inv_init (raw : List (Pt × Pt × Pt)) : Inv (initState raw) := by
  refine ⟨by simp [initState], by simp [initState], ?_⟩
  intro t r htr
  simp only [initState] at htr ⊢
  rw [List.mem_flatten] at htr
  rcases htr with ⟨inner, hin, hmem⟩
  rcases List.mem_map.mp hin with ⟨u, hu, heq⟩
  subst heq
  simp only [List.mem_cons, List.mem_singleton, List.not_mem_nil, or_false] at hmem
  rcases hmem with h | h | h <;> exact (Ev.vert.injEq .. ▸ h).1 ▸ hu

theorem mu_init (raw : List (Pt × Pt × Pt)) :
    mu (initState raw) = 3 * raw.length + (candPts (mkTris raw)).length := by
  unfold mu remCands
  have hq : (initState raw).queue.length = 3 * raw.length := by
    show ((mkTris raw).map (fun t => [Ev.vert t 0, Ev.vert t 1, Ev.vert t 2])).flatten.length
      = 3 * raw.length
    rw [flatten_three (fun t => Ev.vert t 0) (fun t => Ev.vert t 1)
      (fun t => Ev.vert t 2) (mkTris raw), mkTris_length]
  have hrem : ((candPts (initState raw).tris).filter
      (fun p => decide (p ∉ ixKeys (initState raw)))).length =
      (candPts (mkTris raw)).length := by
    have : (candPts (mkTris raw)).filter
        (fun p => decide (p ∉ ixKeys (initState raw))) = candPts (mkTris raw) := by
      apply List.filter_eq_self.mpr
      intro a ha
      simp [ixKeys, initState]
    exact congrArg List.length this
  rw [hq, hrem]

theorem mapmap_flatten_length {α β γ : Type} (l : List α) (m : List β)
    (g : α → β → γ) :
    ((l.map (fun e => m.map (g e))).flatten).length = l.length * m.length := by
  induction l with
  | nil => simp
  | cons x xs ih =>
    simp only [List.map_cons, List.flatten_cons, List.length_append, ih,
      List.length_map, List.length_cons]
    ring

theorem allEdges_length (tris : List Triangle) :
    (allEdges tris).length = 3 * tris.length := by
  show ((tris.map Triangle.edges).flatten).length = 3 * tris.length
  have : tris.map Triangle.edges =
      tris.map (fun t => [t.e0, t.e1, t.e2]) := rfl
  rw [this]
  exact flatten_three _ _ _ tris

theorem candPts_le (tris : List Triangle) :
    (candPts tris).length ≤ (3 * tris.length) * (3 * tris.length) := by
  unfold candPts
  have h1 := (List.dedup_sublist
    ((((allEdges tris).map (fun e => (allEdges tris).map (fun f => (e, f)))).flatten).filterMap
      (fun pr =>
        let r := segSegInt pr.1 pr.2
        if r.1 = ICode.proper then some r.2 else Option.none))).length_le
  have h2 := List.length_filterMap_le
    (fun pr : Seg × Seg =>
      let r := segSegInt pr.1 pr.2
      if r.1 = ICode.proper then some r.2 else Option.none)
    (((allEdges tris).map (fun e => (allEdges tris).map (fun f => (e, f)))).flatten)
  have h3 := mapmap_flatten_length (allEdges tris) (allEdges tris)
    (fun e f => (e, f))
  rw [allEdges_length] at h3
  calc (candPts tris).length
      ≤ _ := h1
    _ ≤ _ := h2
    _ = (3 * tris.length) * (3 * tris.length) := h3

/-- C8: termination — with fuel equal to three events per triangle plus
the number of distinct candidate crossing points (itself at most the
number of edge pairs, O(n^2)), the queue-draining loop never runs out of
fuel: every run reaches a drained (or, on an internal invariant fault
per spec section 7, aborted) state in at most that many steps, because
the Intersection Index's deduplication lets each distinct crossing point
be enqueued at most once. -/
theorem C8_termination (raw : List (Pt × Pt × Pt)) :
    loop (fuelFor raw) (initState raw) ≠ RunRes.fuelOut ∧
    (candPts (mkTris raw)).length ≤ (3 * raw.length) * (3 * raw.length) := by
  constructor
  · apply loop_no_fuelOut (fuelFor raw) (initState raw) (Inv_init raw)
    rw [mu_init]
    unfold fuelFor
    omega
  · have h := candPts_le (mkTris raw)
    rwa [mkTris_length] at h

end MaxTri

